import Mathlib

/-!
Verification of the dependency-extraction and clustering pipeline of the
github_clustering_analysis repository.

The Python sources are shallowly embedded:
  - strings are modelled as `List Char` (`Str`); the ASCII-level behaviour of
    the Python string operations used by the code (strip, lower, splitlines,
    startswith) is reproduced on this type;
  - functions from external libraries that are opaque to the repository
    (toml.loads, ast.literal_eval) are abstracted as parameters returning
    Option (none models a raised exception, caught by the callers);
  - the standard-library ConfigParser subset exercised by the code is
    embedded concretely, in the Except monad, because the repository calls
    it outside of any try/except (value interpolation is not modelled; the
    inputs in scope contain no percent signs);
  - sklearn KMeans is not part of the repository; it is modelled from the
    spec (see the KMeans section).
-/

deriving instance DecidableEq for Except

namespace GHCluster

/-- Python strings are modelled as lists of characters. -/
abbrev Str := List Char

/-- Python whitespace (the characters matched by str.strip and by regex
whitespace within the ASCII range). -/
def pyIsSpace (c : Char) : Bool :=
  c = ' ' || c = '\t' || c = '\n' || c = '\r' || c = '\x0b' || c = '\x0c'

/-- Embedding of Python str.strip(): remove leading and trailing whitespace. -/
def strStrip (s : Str) : Str :=
  ((s.dropWhile pyIsSpace).reverse.dropWhile pyIsSpace).reverse

/-- Embedding of Python str.lower() (ASCII range). -/
def strLower (s : Str) : Str := s.map Char.toLower

/-- Embedding of Python str.startswith(p). -/
def strStartsWith (s p : Str) : Bool := p.isPrefixOf s

/-- Embedding of Python str.endswith(p). -/
def strEndsWith (s p : Str) : Bool := p.isSuffixOf s

/-- Helper for splitLines. -/
def splitLinesAux (cur : Str) : Str → List Str
  | [] => [cur.reverse]
  | '\r' :: '\n' :: rest =>
      cur.reverse :: (if rest.isEmpty then [] else splitLinesAux [] rest)
  | '\n' :: rest =>
      cur.reverse :: (if rest.isEmpty then [] else splitLinesAux [] rest)
  | '\r' :: rest =>
      cur.reverse :: (if rest.isEmpty then [] else splitLinesAux [] rest)
  | c :: rest => splitLinesAux (c :: cur) rest

/-- Embedding of Python str.splitlines() for the line terminators
newline, carriage return and their combination. -/
def splitLines (s : Str) : List Str :=
  if s.isEmpty then [] else splitLinesAux [] s

/-- The first component of re.split applied with the character class of the
three comparator characters: the prefix of the string before the first
occurrence of a comparator. -/
def takeUntilCmp (s : Str) : Str :=
  s.takeWhile (fun c => !(c = '<' || c = '=' || c = '>'))

/-- True when the string starts with zero or more whitespace characters
followed by a hash. -/
def hashAfterWs : Str → Bool
  | [] => false
  | c :: rest => if c = '#' then true else if pyIsSpace c then hashAfterWs rest else false

/-- The first component of re.split applied with the pattern
whitespace-plus-hash: the prefix before the leftmost position at which one
or more whitespace characters are immediately followed by a hash. -/
def stripInlineComment : Str → Str
  | [] => []
  | c :: rest =>
      if pyIsSpace c && hashAfterWs rest then []
      else c :: stripInlineComment rest

/-- Embedding of extract_packages_from_requirements from
src/functions/collect.py: per line, strip, skip empty lines and lines
beginning with hash or dash, cut the whitespace-hash inline comment, cut at
the first comparator, strip, keep when non-empty, lower-case. -/
def extract_packages_from_requirements (text : Str) : List Str :=
  (splitLines text).filterMap (fun line0 =>
    let line := strStrip line0
    if line.isEmpty || strStartsWith line ['#'] || strStartsWith line ['-'] then none
    else
      let line2 := stripInlineComment line
      let pkg := strStrip (takeUntilCmp line2)
      if pkg.isEmpty then none else some (strLower pkg))

/-- Statement of claim C2 taken at its word: split into lines; skip blank
lines and lines starting with hash or dash; strip inline hash comments;
truncate at the first comparator; trim whitespace; lower-case; drop empty
tokens.  The initial per-line strip performed by the code before the skip
checks is absent here, because the claim lists trimming only after
truncation. -/
def requirementsClaimSpec (text : Str) : List Str :=
  let ls := splitLines text
  let kept := ls.filter (fun l =>
    !((strStrip l).isEmpty || strStartsWith l ['#'] || strStartsWith l ['-']))
  let toks := kept.map (fun l => strStrip (takeUntilCmp (stripInlineComment l)))
  let lowered := toks.map strLower
  lowered.filter (fun t => !t.isEmpty)

/-- Amended claim C2 as a pipeline of passes: each line is first trimmed of
surrounding whitespace; then blank lines and lines starting with hash or
dash are skipped; then inline hash comments are stripped; tokens are
truncated at the first comparator, trimmed, lower-cased, and dropped when
empty. -/
def requirementsAmendedSpec (text : Str) : List Str :=
  let ls := (splitLines text).map strStrip
  let kept := ls.filter (fun l =>
    !(l.isEmpty || strStartsWith l ['#'] || strStartsWith l ['-']))
  let toks := kept.map (fun l => strStrip (takeUntilCmp (stripInlineComment l)))
  let lowered := toks.map strLower
  lowered.filter (fun t => !t.isEmpty)

theorem strLower_isEmpty (s : Str) : (strLower s).isEmpty = s.isEmpty := by
  cases s <;> rfl

theorem filterMap_eq_passes (ls : List Str) :
    ls.filterMap (fun line0 =>
      let line := strStrip line0
      if line.isEmpty || strStartsWith line ['#'] || strStartsWith line ['-'] then none
      else
        let pkg := strStrip (takeUntilCmp (stripInlineComment line))
        if pkg.isEmpty then none else some (strLower pkg))
    = ((((ls.map strStrip).filter (fun l =>
          !(l.isEmpty || strStartsWith l ['#'] || strStartsWith l ['-']))).map
            (fun l => strStrip (takeUntilCmp (stripInlineComment l)))).map
              strLower).filter (fun t => !t.isEmpty) := by
  induction ls with
  | nil => rfl
  | cons a ls ih =>
    simp only [List.filterMap_cons, List.map_cons, List.filter_cons]
    by_cases h1 : ((strStrip a).isEmpty || strStartsWith (strStrip a) ['#']
        || strStartsWith (strStrip a) ['-']) = true
    · simp only [h1, Bool.not_true, if_true]
      simpa using ih
    · simp only [h1, Bool.not_false, if_false]
      rw [Bool.not_eq_true] at h1
      simp only [h1, Bool.not_false, if_true, List.map_cons, List.filter_cons]
      by_cases h2 :
          (strStrip (takeUntilCmp (stripInlineComment (strStrip a)))).isEmpty = true
      · simp only [h2, if_true]
        have h3 : (strLower (strStrip (takeUntilCmp
            (stripInlineComment (strStrip a))))).isEmpty = true := by
          rw [strLower_isEmpty]; exact h2
        simp only [h3, Bool.not_true, if_false]
        simpa using ih
      · rw [Bool.not_eq_true] at h2
        simp only [h2, if_false]
        have h3 : (strLower (strStrip (takeUntilCmp
            (stripInlineComment (strStrip a))))).isEmpty = false := by
          rw [strLower_isEmpty]; exact h2
        simp only [h3, Bool.not_false, if_true]
        simpa using ih

/-- The literal searched for by the setup.py pattern. -/
def irLit : Str := "install_requires".toList

/-- Attempt to match, at the head of the string, the pattern consisting of
the install_requires literal, optional whitespace, an equals sign, optional
whitespace, and a bracketed chunk free of closing brackets; on success the
bracketed chunk (with its brackets) is returned, mirroring the capture
group of the regular expression in extract_packages_from_setup_py. -/
def matchIRAt (s : Str) : Option Str :=
  if irLit.isPrefixOf s then
    match (s.drop irLit.length).dropWhile pyIsSpace with
    | '=' :: r2 =>
      match r2.dropWhile pyIsSpace with
      | '[' :: r3 =>
        let body := r3.takeWhile (fun c => c ≠ ']')
        match r3.dropWhile (fun c => c ≠ ']') with
        | ']' :: _ => some ('[' :: (body ++ [']']))
        | _ => none
      | _ => none
    | _ => none
  else none

/-- Leftmost match of the install_requires pattern, as re.search finds it:
the match attempt is made at every position from the left. -/
def findIR : Str → Option Str
  | [] => none
  | c :: rest =>
    match matchIRAt (c :: rest) with
    | some g => some g
    | none => findIR rest

/-- Result values of ast.literal_eval on a list literal: each element is a
Python string or some other literal. -/
inductive PyLit where
  | pstr (s : Str)
  | pother
deriving DecidableEq

/-- Abstraction of ast.literal_eval applied to a bracketed chunk: none
models a raised exception (malformed literal), some gives the elements. -/
def LitEval := Str → Option (List PyLit)

/-- True when the literal element is a string. -/
def PyLit.isStr : PyLit → Bool
  | .pstr _ => true
  | .pother => false

/-- Normalisation applied to one dependency string in the setup.py and
pyproject project branches: cut at the first comparator, strip, lower-case,
drop when empty. -/
def normDep (s : Str) : Option Str :=
  let c := strLower (strStrip (takeUntilCmp s))
  if c.isEmpty then none else some c

/-- Embedding of extract_packages_from_setup_py from
src/functions/collect.py: search for the install_requires list literal
(first match); evaluate it with ast.literal_eval; on any exception inside
the try block (evaluation failure, or a non-string element reaching
re.split) return the empty list. -/
def extract_packages_from_setup_py (le : LitEval) (text : Str) : List Str :=
  match findIR text with
  | none => []
  | some listStr =>
    match le listStr with
    | none => []
    | some deps =>
      if deps.all PyLit.isStr then
        deps.filterMap (fun d =>
          match d with
          | .pstr s => normDep s
          | .pother => none)
      else []

/-- Exceptions of the embedded ConfigParser subset.  The repository calls
read_string, has_option and get outside of any try/except, so these
propagate out of extract_packages_from_setup_cfg. -/
inductive CfgError where
  | missingSectionHeader
  | duplicateSection
  | duplicateOption
  | parsingError
  | noSection
deriving DecidableEq

/-- Parser state while reading an INI document: completed sections in
order, the section being filled, and the option currently accepting
continuation lines. -/
structure CfgAcc where
  done : List (Str × List (Str × Str))
  curName : Option Str
  curOpts : List (Str × Str)
  curKey : Option Str

/-- Close the section being filled. -/
def cfgFlush (acc : CfgAcc) : List (Str × List (Str × Str)) :=
  match acc.curName with
  | none => acc.done
  | some n => acc.done ++ [(n, acc.curOpts)]

/-- A line that ConfigParser ignores: blank, or a full-line comment
starting (after whitespace) with hash or semicolon. -/
def cfgIsCommentOrBlank (line : Str) : Bool :=
  let s := strStrip line
  s.isEmpty || strStartsWith s ['#'] || strStartsWith s [';']

/-- Split an option line at the first delimiter (equals sign or colon),
as the lazy option group of the ConfigParser option pattern does. -/
def splitDelim (line : Str) : Option (Str × Str) :=
  let before := line.takeWhile (fun c => !(c = '=' || c = ':'))
  match line.dropWhile (fun c => !(c = '=' || c = ':')) with
  | _ :: rest => some (before, rest)
  | [] => none

/-- The section header pattern captures everything between the opening
bracket and the last closing bracket; the content must be non-empty. -/
def headerContent (rest : Str) : Option Str :=
  match rest.reverse.dropWhile (fun c => c ≠ ']') with
  | ']' :: r => if r.isEmpty then none else some r.reverse
  | _ => none

/-- Append a continuation line to the value of the current option. -/
def appendCont (opts : List (Str × Str)) (k add : Str) : List (Str × Str) :=
  opts.map (fun p => if p.1 = k then (p.1, p.2 ++ '\n' :: add) else p)

/-- Process one line of an INI document (ConfigParser read_string with the
default strict settings; value interpolation is not modelled). -/
def cfgLine (acc : CfgAcc) (line : Str) : Except CfgError CfgAcc :=
  if cfgIsCommentOrBlank line then .ok acc
  else if (match line with | c :: _ => pyIsSpace c | [] => false) then
    match acc.curName, acc.curKey with
    | some _, some k => .ok { acc with curOpts := appendCont acc.curOpts k (strStrip line) }
    | none, _ => .error .missingSectionHeader
    | _, _ => .error .parsingError
  else
    match line with
    | '[' :: rest =>
      (match headerContent rest with
       | some name =>
         if (acc.done.map Prod.fst).contains name || acc.curName = some name then
           .error .duplicateSection
         else
           .ok { done := cfgFlush acc, curName := some name, curOpts := [], curKey := none }
       | none =>
         if acc.curName = none then .error .missingSectionHeader else .error .parsingError)
    | _ =>
      if acc.curName = none then .error .missingSectionHeader
      else
        match splitDelim line with
        | none => .error .parsingError
        | some (before, after) =>
          let key := strLower (strStrip before)
          if (acc.curOpts.map Prod.fst).contains key then .error .duplicateOption
          else .ok { acc with
                      curOpts := acc.curOpts ++ [(key, strStrip after)],
                      curKey := some key }

/-- Embedding of ConfigParser read_string for the subset of the INI format
exercised by the repository. -/
def cfgReadString (text : Str) : Except CfgError (List (Str × List (Str × Str))) := do
  let acc ← (splitLines text).foldlM cfgLine ⟨[], none, [], none⟩
  .ok (cfgFlush acc)

/-- Embedding of extract_packages_from_setup_cfg from
src/functions/collect.py.  The function body has no try/except: a
read_string failure propagates, and has_option raises NoSectionError when
the options section is absent. -/
def extract_packages_from_setup_cfg (text : Str) : Except CfgError (List Str) := do
  let cfg ← cfgReadString text
  match List.lookup "options".toList cfg with
  | none => .error .noSection
  | some opts =>
    match List.lookup "install_requires".toList opts with
    | none => .ok []
    | some v =>
      .ok ((splitLines v).filterMap (fun line0 =>
        let line := strStrip line0
        if !line.isEmpty && !strStartsWith line ['#'] then
          let pkg := strStrip (takeUntilCmp line)
          if !pkg.isEmpty then some (strLower pkg) else none
        else none))

/-- Values of a parsed TOML document as the toml library hands them to the
repository: strings, arrays, tables (insertion-ordered, unique keys), and
any other value (numbers, booleans, dates). -/
inductive TomlVal where
  | vStr (s : Str)
  | vList (l : List TomlVal)
  | vTable (t : List (Str × TomlVal))
  | vOther

instance : Inhabited TomlVal := ⟨.vOther⟩

/-- Abstraction of toml.loads: none models a raised parse exception
(caught by the try of extract_packages_from_pyproject); some gives the
top-level table. -/
def TomlLoads := Str → Option (List (Str × TomlVal))

/-- Python runtime exceptions that the pyproject branches can raise inside
their try block. -/
inductive PyErr where
  | typeError
  | keyError
  | attrError
deriving DecidableEq

/-- Substring test, as the Python in-operator behaves on strings. -/
def strHasSub (needle : Str) : Str → Bool
  | [] => needle.isEmpty
  | c :: rest => needle.isPrefixOf (c :: rest) || strHasSub needle rest

/-- Membership test of a string key in a Python list value: equality holds
only against equal strings, other elements compare unequal. -/
def listHasStr (key : Str) : List TomlVal → Bool
  | [] => false
  | .vStr s :: rest => s = key || listHasStr key rest
  | _ :: rest => listHasStr key rest

/-- The Python in-operator applied to a parsed TOML value: key membership
on tables, substring test on strings, element equality on lists, TypeError
otherwise. -/
def pyIn (key : Str) : TomlVal → Except PyErr Bool
  | .vTable t => .ok ((List.lookup key t).isSome)
  | .vStr s => .ok (strHasSub key s)
  | .vList l => .ok (listHasStr key l)
  | .vOther => .error .typeError

/-- Python subscription with a string key: table lookup (KeyError when
absent), TypeError on strings, lists and other values. -/
def pyGetItem (v : TomlVal) (key : Str) : Except PyErr TomlVal :=
  match v with
  | .vTable t =>
    match List.lookup key t with
    | some w => .ok w
    | none => .error .keyError
  | _ => .error .typeError

/-- Python dict.get with a default: defined on tables only; on any other
value the attribute access raises AttributeError. -/
def pyDictGet (v : TomlVal) (key : Str) (dflt : TomlVal) : Except PyErr TomlVal :=
  match v with
  | .vTable t => .ok ((List.lookup key t).getD dflt)
  | _ => .error .attrError

/-- Python iteration over a parsed TOML value: elements of a list, the
characters of a string as one-character strings, the keys of a table;
TypeError otherwise. -/
def pyIter : TomlVal → Except PyErr (List TomlVal)
  | .vList l => .ok l
  | .vStr s => .ok (s.map (fun c => .vStr [c]))
  | .vTable t => .ok (t.map (fun kv => .vStr kv.1))
  | .vOther => .error .typeError

/-- Key of the primary table of claim C8. -/
def keyProject : Str := "project".toList

/-- Key of the dependency entries. -/
def keyDependencies : Str := "dependencies".toList

/-- Key of the secondary namespaced table. -/
def keyTool : Str := "tool".toList

/-- Key of the poetry sub-table. -/
def keyPoetry : Str := "poetry".toList

/-- The sentinel language self-reference key. -/
def strPython : Str := "python".toList

/-- The guarded membership test of the two conditions of the parser: the
second conjunct is evaluated only when the outer key is present. -/
def inCheck (key : Str) : Option TomlVal → Except PyErr Bool
  | none => .ok false
  | some v => pyIn key v

/-- The loop of the project branch: each element is normalised with
comparator truncation, strip and lower-casing; a non-string element makes
re.split raise TypeError. -/
def normDeps : List TomlVal → Except PyErr (List Str)
  | [] => .ok []
  | .vStr s :: rest => do
      let r ← normDeps rest
      .ok (match normDep s with | some c => c :: r | none => r)
  | _ :: _ => .error .typeError

/-- The comprehension of the poetry branch: each key is lower-cased and
kept unless it equals the string python; a non-string element makes the
lower attribute access raise. -/
def poetryComp : List TomlVal → Except PyErr (List Str)
  | [] => .ok []
  | .vStr s :: rest => do
      let r ← poetryComp rest
      .ok (if strLower s = strPython then r else strLower s :: r)
  | _ :: _ => .error .attrError

/-- The elif branch of extract_packages_from_pyproject, operating on the
parsed document. -/
def poetryBranch (data : List (Str × TomlVal)) : Except PyErr (List Str) := do
  let toolCond ← inCheck keyPoetry (List.lookup keyTool data)
  if toolCond then
    let tv ← pyGetItem (.vTable data) keyTool
    let pv ← pyGetItem tv keyPoetry
    let pdeps ← pyDictGet pv keyDependencies (.vTable [])
    let items ← pyIter pdeps
    poetryComp items
  else
    .ok []

/-- Body of the try block of extract_packages_from_pyproject, operating on
the parsed document. -/
def pyprojectBody (data : List (Str × TomlVal)) : Except PyErr (List Str) := do
  let projCond ← inCheck keyDependencies (List.lookup keyProject data)
  if projCond then
    let pv ← pyGetItem (.vTable data) keyProject
    let deps ← pyGetItem pv keyDependencies
    let items ← pyIter deps
    normDeps items
  else
    poetryBranch data

/-- Embedding of extract_packages_from_pyproject from
src/functions/collect.py: parse, run the two branches in priority order;
any exception inside the try (parse failure included) yields the empty
list. -/
def extract_packages_from_pyproject (tl : TomlLoads) (text : Str) : List Str :=
  match tl text with
  | none => []
  | some data =>
    match pyprojectBody data with
    | .ok l => l
    | .error _ => []

/-- A raw repository as the aggregator sees it: its full name and the
content source.  The fetch field models get_contents followed by decoding:
none stands for any fetch failure (file absent, network error), which the
per-file try of process_repo turns into skipping the candidate. -/
structure Repo where
  full_name : Str
  fetch : Str → Option Str

/-- The fixed ordered candidate list probed by process_repo. -/
def dependency_files : List Str :=
  ["requirements.txt".toList, "setup.py".toList, "setup.cfg".toList,
   "pyproject.toml".toList]

/-- Embedding of extract_from_file from src/functions/collect.py: dispatch
on the file name, defaulting to the line-oriented format.  The result is in
the Except monad because the setup.cfg branch can raise. -/
def extract_from_file (le : LitEval) (tl : TomlLoads) (file_name file_text : Str) :
    Except CfgError (List Str) :=
  if strEndsWith file_name "requirements.txt".toList then
    .ok (extract_packages_from_requirements file_text)
  else if file_name = "setup.py".toList then
    .ok (extract_packages_from_setup_py le file_text)
  else if file_name = "setup.cfg".toList then
    extract_packages_from_setup_cfg file_text
  else if strEndsWith file_name "pyproject.toml".toList then
    .ok (extract_packages_from_pyproject tl file_text)
  else
    .ok (extract_packages_from_requirements file_text)

/-- Packages contributed by one candidate file of a repository: a fetch
failure or a parse exception is caught by the per-file try of process_repo
and contributes nothing. -/
def repoFilePackages (le : LitEval) (tl : TomlLoads) (repo : Repo) (fn : Str) :
    List Str :=
  match repo.fetch fn with
  | none => []
  | some text =>
    match extract_from_file le tl fn text with
    | .ok pkgs => pkgs
    | .error _ => []

/-- The concatenation of the per-file package lists of a repository, in
candidate order, before deduplication. -/
def aggPackages (le : LitEval) (tl : TomlLoads) (repo : Repo) : List Str :=
  (dependency_files.map (repoFilePackages le tl repo)).flatten

/-- Embedding of process_repo from src/functions/collect.py: probe the
candidates, concatenate, deduplicate with set semantics (the iteration
order of a Python set is unspecified; the theorems below use only
order-insensitive consequences of the deduplication), and drop the
repository when nothing remains. -/
def process_repo (le : LitEval) (tl : TomlLoads) (repo : Repo) :
    Option (Str × List Str) :=
  let agg := (aggPackages le tl repo).dedup
  if agg = [] then none else some (repo.full_name, agg)

/-- Assignment into the result dictionary: overwrite the value when the
key is present, append otherwise. -/
def insertResult (m : List (Str × List Str)) (k : Str) (v : List Str) :
    List (Str × List Str) :=
  if (List.lookup k m).isSome then
    m.map (fun p => if p.1 = k then (p.1, v) else p)
  else m ++ [(k, v)]

/-- One completion of a worker task: a repository that produced no result
leaves the dictionary unchanged, otherwise its entry is stored. -/
def depStep (le : LitEval) (tl : TomlLoads)
    (acc : List (Str × List Str)) (repo : Repo) : List (Str × List Str) :=
  match process_repo le tl repo with
  | none => acc
  | some (n, pkgs) => insertResult acc n pkgs

/-- Embedding of extract_dependencies from src/functions/collect.py.  The
worker pool completes the per-repository tasks in some order; the input
list stands for the values of the raw mapping in completion order, and the
theorems quantify over it. -/
def extract_dependencies (le : LitEval) (tl : TomlLoads) (raws : List Repo) :
    List (Str × List Str) :=
  raws.foldl (depStep le tl) []

/-- Lexicographic comparison of strings by character code points, the
order used by Python sorted() on strings. -/
def lexLe : Str → Str → Bool
  | [], _ => true
  | _ :: _, [] => false
  | a :: as, b :: bs => if a < b then true else if b < a then false else lexLe as bs

theorem lexLe_total (a b : Str) : lexLe a b = true ∨ lexLe b a = true := by
  induction a generalizing b with
  | nil => exact Or.inl rfl
  | cons x xs ih =>
    cases b with
    | nil => exact Or.inr rfl
    | cons y ys =>
      rcases lt_trichotomy x y with h | h | h
      · exact Or.inl (by simp [lexLe, h])
      · subst h
        rcases ih ys with h2 | h2
        · exact Or.inl (by simp [lexLe, lt_irrefl, h2])
        · exact Or.inr (by simp [lexLe, lt_irrefl, h2])
      · exact Or.inr (by simp [lexLe, h])

theorem lexLe_antisymm : ∀ {a b : Str}, lexLe a b = true → lexLe b a = true → a = b := by
  intro a
  induction a with
  | nil =>
    intro b _ h2
    cases b with
    | nil => rfl
    | cons y ys => simp [lexLe] at h2
  | cons x xs ih =>
    intro b h1 h2
    cases b with
    | nil => simp [lexLe] at h1
    | cons y ys =>
      rcases lt_trichotomy x y with h | h | h
      · simp [lexLe, h, asymm h] at h2
      · subst h
        simp only [lexLe, lt_irrefl, if_false] at h1 h2
        rw [ih h1 h2]
      · simp [lexLe, h, asymm h] at h1

theorem lexLe_trans : ∀ {a b c : Str},
    lexLe a b = true → lexLe b c = true → lexLe a c = true := by
  intro a
  induction a with
  | nil => intro b c _ _; rfl
  | cons x xs ih =>
    intro b c h1 h2
    cases b with
    | nil => simp [lexLe] at h1
    | cons y ys =>
      cases c with
      | nil => simp [lexLe] at h2
      | cons z zs =>
        rcases lt_trichotomy x y with hxy | hxy | hxy
        · rcases lt_trichotomy y z with hyz | hyz | hyz
          · exact (by simp [lexLe, lt_trans hxy hyz])
          · subst hyz; exact (by simp [lexLe, hxy])
          · simp [lexLe, hyz, asymm hyz] at h2
        · subst hxy
          simp only [lexLe, lt_irrefl, if_false] at h1
          rcases lt_trichotomy x z with hyz | hyz | hyz
          · exact (by simp [lexLe, hyz])
          · subst hyz
            simp only [lexLe, lt_irrefl, if_false] at h2 ⊢
            exact ih h1 h2
          · simp [lexLe, hyz, asymm hyz] at h2
        · simp [lexLe, hxy, asymm hxy] at h1

/-- Insert into a sorted list, keeping it sorted. -/
def insertSorted (x : Str) : List Str → List Str
  | [] => [x]
  | y :: ys => if lexLe x y then x :: y :: ys else y :: insertSorted x ys

/-- Insertion sort; its output is the unique sorted duplicate-preserving
rearrangement, hence also the value of Python sorted(). -/
def sortStr (l : List Str) : List Str := l.foldr insertSorted []

theorem insertSorted_perm (x : Str) (l : List Str) :
    (insertSorted x l).Perm (x :: l) := by
  induction l with
  | nil => exact List.Perm.refl _
  | cons y ys ih =>
    by_cases h : lexLe x y = true
    · simp [insertSorted, h]
    · simp only [insertSorted, h, if_false]
      exact (ih.cons y).trans (List.Perm.swap x y ys)

theorem pairwise_insertSorted (x : Str) (l : List Str)
    (h : l.Pairwise (fun a b => lexLe a b = true)) :
    (insertSorted x l).Pairwise (fun a b => lexLe a b = true) := by
  induction l with
  | nil => simp [insertSorted]
  | cons y ys ih =>
    rcases List.pairwise_cons.mp h with ⟨hy, hys⟩
    by_cases hxy : lexLe x y = true
    · simp only [insertSorted, hxy, if_true]
      refine List.pairwise_cons.mpr ⟨?_, h⟩
      intro b hb
      rcases List.mem_cons.mp hb with rfl | hb2
      · exact hxy
      · exact lexLe_trans hxy (hy b hb2)
    · have hyx : lexLe y x = true := (lexLe_total x y).resolve_left hxy
      simp only [insertSorted, hxy, if_false]
      refine List.pairwise_cons.mpr ⟨?_, ih hys⟩
      intro b hb
      have hb' : b ∈ x :: ys := (insertSorted_perm x ys).mem_iff.mp hb
      rcases List.mem_cons.mp hb' with rfl | hb2
      · exact hyx
      · exact hy b hb2

theorem sortStr_perm (l : List Str) : (sortStr l).Perm l := by
  induction l with
  | nil => exact List.Perm.refl _
  | cons x xs ih => exact (insertSorted_perm x (sortStr xs)).trans (ih.cons x)

theorem sortStr_pairwise (l : List Str) :
    (sortStr l).Pairwise (fun a b => lexLe a b = true) := by
  induction l with
  | nil => simp [sortStr]
  | cons x xs ih => exact pairwise_insertSorted x (sortStr xs) ih

theorem sorted_nodup_ext : ∀ (l1 l2 : List Str),
    l1.Pairwise (fun a b => lexLe a b = true) →
    l2.Pairwise (fun a b => lexLe a b = true) →
    l1.Nodup → l2.Nodup → (∀ a, a ∈ l1 ↔ a ∈ l2) → l1 = l2 := by
  intro l1
  induction l1 with
  | nil =>
    intro l2 _ _ _ _ hm
    cases l2 with
    | nil => rfl
    | cons y ys => exact absurd ((hm y).mpr (List.mem_cons_self y ys)) (List.not_mem_nil y)
  | cons x xs ih =>
    intro l2 h1 h2 n1 n2 hm
    cases l2 with
    | nil => exact absurd ((hm x).mp (List.mem_cons_self x xs)) (List.not_mem_nil x)
    | cons y ys =>
      have hxy : x = y := by
        have hx2 : x ∈ y :: ys := (hm x).mp (List.mem_cons_self x xs)
        have hy1 : y ∈ x :: xs := (hm y).mpr (List.mem_cons_self y ys)
        rcases List.mem_cons.mp hx2 with h | hx3
        · exact h
        · rcases List.mem_cons.mp hy1 with h | hy3
          · exact h.symm
          · exact lexLe_antisymm ((List.pairwise_cons.mp h1).1 y hy3)
              ((List.pairwise_cons.mp h2).1 x hx3)
      subst hxy
      have hxs : ∀ a, a ∈ xs ↔ a ∈ ys := by
        intro a
        constructor
        · intro ha
          have h2' : a ∈ x :: ys := (hm a).mp (List.mem_cons_of_mem x ha)
          rcases List.mem_cons.mp h2' with rfl | h
          · exact absurd ha (List.nodup_cons.mp n1).1
          · exact h
        · intro ha
          have h2' : a ∈ x :: xs := (hm a).mpr (List.mem_cons_of_mem x ha)
          rcases List.mem_cons.mp h2' with rfl | h
          · exact absurd ha (List.nodup_cons.mp n2).1
          · exact h
      rw [ih ys (List.pairwise_cons.mp h1).2 (List.pairwise_cons.mp h2).2
            (List.nodup_cons.mp n1).2 (List.nodup_cons.mp n2).2 hxs]

/-- Index assigned to a package by the dictionary comprehension of
src/main.py: iterating enumerate overwrites earlier bindings, so the last
index wins (on the duplicate-free vocabulary this is the only index). -/
def pkgIndexFrom (p : Str) : Nat → List Str → Option Nat
  | _, [] => none
  | i, q :: qs =>
    match pkgIndexFrom p (i + 1) qs with
    | some j => some j
    | none => if q = p then some i else none

/-- Embedding of package_to_index followed by dict get. -/
def package_to_index (vocab : List Str) (p : Str) : Option Nat :=
  pkgIndexFrom p 0 vocab

/-- One step of the inner loop of the matrix construction: look the
package up and, when found, write a one into the row. -/
def applyPkg (vocab : List Str) (row : List Nat) (p : Str) : List Nat :=
  match package_to_index vocab p with
  | some j => row.set j 1
  | none => row

/-- One row of the matrix X of src/main.py: start from zeros and process
the packages of the repository. -/
def buildRow (vocab : List Str) (pkgs : List Str) : List Nat :=
  pkgs.foldl (applyPkg vocab) (List.replicate vocab.length 0)

/-- Embedding of repo_names of src/main.py: the keys of the mapping in
its iteration order. -/
def repo_names (repos : List (Str × List Str)) : List Str := repos.map Prod.fst

/-- Embedding of all_packages of src/main.py: the sorted set of packages
across all repositories. -/
def all_packages (repos : List (Str × List Str)) : List Str :=
  sortStr ((repos.map Prod.snd).flatten).dedup

/-- Embedding of the matrix X of src/main.py, row-major. -/
def featureMatrix (repos : List (Str × List Str)) : List (List Nat) :=
  (repo_names repos).map
    (fun r => buildRow (all_packages repos) ((List.lookup r repos).getD []))

theorem pkgIndexFrom_shift (p : Str) (l : List Str) :
    ∀ i, pkgIndexFrom p (i + 1) l = (pkgIndexFrom p i l).map (· + 1) := by
  induction l with
  | nil => intro i; rfl
  | cons q qs ih =>
    intro i
    simp only [pkgIndexFrom, ih (i + 1)]
    cases h : pkgIndexFrom p (i + 1) qs with
    | some j => rfl
    | none =>
      by_cases hq : q = p
      · simp [hq]
      · simp [hq]

theorem package_to_index_none (vocab : List Str) (p : Str) :
    package_to_index vocab p = none ↔ p ∉ vocab := by
  induction vocab with
  | nil => simp [package_to_index, pkgIndexFrom]
  | cons q qs ih =>
    simp only [package_to_index, pkgIndexFrom, pkgIndexFrom_shift]
    rw [package_to_index] at ih
    cases h : pkgIndexFrom p 0 qs with
    | some j =>
      simp only [Option.map_some, List.mem_cons]
      constructor
      · intro hc; exact absurd hc (by simp)
      · intro hc
        exact absurd (ih.mpr (fun hm => hc (Or.inr hm))) (by simp [h])
    | none =>
      have hp : p ∉ qs := ih.mp h
      by_cases hq : q = p
      · simp [hq, Option.map_none]
      · simp [hq, Option.map_none, hp, Ne.symm hq]

theorem package_to_index_some (vocab : List Str) (p : Str) (j : Nat) :
    package_to_index vocab p = some j → j < vocab.length ∧ vocab.getD j [] = p := by
  induction vocab generalizing j with
  | nil => intro h; simp [package_to_index, pkgIndexFrom] at h
  | cons q qs ih =>
    intro h
    simp only [package_to_index, pkgIndexFrom, pkgIndexFrom_shift] at h
    cases h0 : pkgIndexFrom p 0 qs with
    | some j0 =>
      rw [h0] at h
      change some (j0 + 1) = some j at h
      cases h
      rcases ih j0 h0 with ⟨hlt, hget⟩
      refine ⟨by simpa using Nat.succ_lt_succ hlt, ?_⟩
      simpa using hget
    | none =>
      rw [h0] at h
      change (if q = p then some 0 else none) = some j at h
      by_cases hq : q = p
      · rw [if_pos hq] at h
        cases h
        exact ⟨Nat.succ_pos _, hq⟩
      · rw [if_neg hq] at h
        exact Option.noConfusion h

theorem applyPkg_length (vocab : List Str) (row : List Nat) (p : Str) :
    (applyPkg vocab row p).length = row.length := by
  unfold applyPkg
  cases package_to_index vocab p with
  | some j => simp
  | none => rfl

theorem foldl_applyPkg_length (vocab : List Str) (pkgs : List Str) :
    ∀ row : List Nat, (pkgs.foldl (applyPkg vocab) row).length = row.length := by
  induction pkgs with
  | nil => intro row; rfl
  | cons p ps ih =>
    intro row
    simp only [List.foldl_cons]
    rw [ih, applyPkg_length]

theorem buildRow_length (vocab : List Str) (pkgs : List Str) :
    (buildRow vocab pkgs).length = vocab.length := by
  unfold buildRow
  rw [foldl_applyPkg_length]
  simp

theorem getD_mem {l : List Str} {j : Nat} (hj : j < l.length) : l.getD j [] ∈ l := by
  rw [List.getD_eq_getElem l [] hj]
  exact List.getElem_mem hj

theorem applyPkg_getD (vocab : List Str) (hnd : vocab.Nodup) (row : List Nat)
    (hlen : row.length = vocab.length) (p : Str) (j : Nat) (hj : j < vocab.length) :
    (applyPkg vocab row p).getD j 0 =
      if vocab.getD j [] = p then 1 else row.getD j 0 := by
  unfold applyPkg
  cases hpi : package_to_index vocab p with
  | none =>
    have hp : p ∉ vocab := (package_to_index_none vocab p).mp hpi
    have hne : vocab.getD j [] ≠ p := fun he => hp (he ▸ getD_mem hj)
    rw [if_neg hne]
  | some i =>
    rcases package_to_index_some vocab p i hpi with ⟨hi, hgi⟩
    have hjr : j < row.length := by rw [hlen]; exact hj
    have hjs : j < (row.set i 1).length := by simpa using hjr
    rw [List.getD_eq_getElem _ 0 hjs, List.getElem_set, List.getD_eq_getElem _ 0 hjr]
    by_cases hij : i = j
    · subst hij
      rw [if_pos rfl, if_pos hgi]
    · have hne : vocab.getD j [] ≠ p := by
        intro he
        apply hij
        have h1 : vocab.getD i [] = vocab.getD j [] := by rw [hgi, he]
        rw [List.getD_eq_getElem _ [] hi, List.getD_eq_getElem _ [] hj] at h1
        exact (List.Nodup.getElem_inj_iff hnd).mp h1
      rw [if_neg hij, if_neg hne]

theorem foldl_applyPkg_getD (vocab : List Str) (hnd : vocab.Nodup) (pkgs : List Str) :
    ∀ (row : List Nat), row.length = vocab.length → ∀ j, j < vocab.length →
    (pkgs.foldl (applyPkg vocab) row).getD j 0 =
      if vocab.getD j [] ∈ pkgs then 1 else row.getD j 0 := by
  induction pkgs with
  | nil => intro row _ j _; simp
  | cons p ps ih =>
    intro row hlen j hj
    simp only [List.foldl_cons]
    rw [ih (applyPkg vocab row p) (by rw [applyPkg_length, hlen]) j hj,
      applyPkg_getD vocab hnd row hlen p j hj]
    simp only [List.mem_cons]
    by_cases h1 : vocab.getD j [] ∈ ps
    · rw [if_pos h1, if_pos (Or.inr h1)]
    · rw [if_neg h1]
      by_cases h2 : vocab.getD j [] = p
      · rw [if_pos h2, if_pos (Or.inl h2)]
      · rw [if_neg h2, if_neg (by rintro (h | h) <;> [exact h2 h; exact h1 h])]

theorem buildRow_getD (vocab : List Str) (hnd : vocab.Nodup) (pkgs : List Str)
    (j : Nat) (hj : j < vocab.length) :
    (buildRow vocab pkgs).getD j 0 = if vocab.getD j [] ∈ pkgs then 1 else 0 := by
  unfold buildRow
  rw [foldl_applyPkg_getD vocab hnd pkgs _ (by simp) j hj]
  have hz : (List.replicate vocab.length 0).getD j 0 = 0 := by
    rw [List.getD_eq_getElem (List.replicate vocab.length 0) 0 (by simpa using hj)]
    exact List.getElem_replicate ..
  rw [hz]

theorem lookup_of_nodup (repos : List (Str × List Str))
    (h : (repos.map Prod.fst).Nodup) :
    ∀ i, i < repos.length →
    List.lookup ((repos.map Prod.fst).getD i []) repos
      = some ((repos.map Prod.snd).getD i []) := by
  induction repos with
  | nil => intro i hi; exact absurd hi (by simp)
  | cons e rest ih =>
    intro i hi
    rcases List.nodup_cons.mp h with ⟨hk, hrest⟩
    cases i with
    | zero => simp [List.lookup]
    | succ i =>
      cases e with
      | mk k v =>
        have hi' : i < rest.length := by simpa using hi
        have hmem : (rest.map Prod.fst).getD i [] ∈ rest.map Prod.fst :=
          getD_mem (by simpa using hi')
        have hne : ((rest.map Prod.fst).getD i [] == k) = false := by
          rw [beq_eq_false_iff_ne]
          intro he
          exact hk (he ▸ hmem)
        simp only [List.map_cons, List.getD_cons_succ, List.lookup, hne]
        exact ih hrest i hi'

theorem featureMatrix_getD (repos : List (Str × List Str))
    (h : (repos.map Prod.fst).Nodup) (i : Nat) (hi : i < repos.length) :
    (featureMatrix repos).getD i []
      = buildRow (all_packages repos) ((repos.map Prod.snd).getD i []) := by
  have hlen : i < (repo_names repos).length := by simpa [repo_names] using hi
  unfold featureMatrix
  rw [List.getD_eq_getElem _ [] (by simpa using hlen), List.getElem_map]
  congr 1
  have hget : (repo_names repos).get ⟨i, hlen⟩ = (repos.map Prod.fst).getD i [] := by
    rw [List.getD_eq_getElem _ [] (by simpa using hi)]
    rfl
  rw [show (repo_names repos)[i] = (repo_names repos).get ⟨i, hlen⟩ from rfl, hget,
    lookup_of_nodup repos h i hi]
  rfl

theorem mem_all_packages (repos : List (Str × List Str)) (p : Str) :
    p ∈ all_packages repos ↔ ∃ e ∈ repos, p ∈ e.2 := by
  unfold all_packages
  rw [(sortStr_perm _).mem_iff, List.mem_dedup, List.mem_flatten]
  constructor
  · rintro ⟨l, hl, hp⟩
    rcases List.mem_map.mp hl with ⟨e, he, rfl⟩
    exact ⟨e, he, hp⟩
  · rintro ⟨e, he, hp⟩
    exact ⟨e.2, List.mem_map.mpr ⟨e, he, rfl⟩, hp⟩

theorem all_packages_nodup (repos : List (Str × List Str)) :
    (all_packages repos).Nodup :=
  (sortStr_perm _).symm.nodup (List.nodup_dedup _)

theorem all_packages_perm (repos repos2 : List (Str × List Str))
    (hperm : repos.Perm repos2) :
    all_packages repos = all_packages repos2 := by
  apply sorted_nodup_ext _ _ (sortStr_pairwise _) (sortStr_pairwise _)
    (all_packages_nodup repos) (all_packages_nodup repos2)
  intro a
  change a ∈ all_packages repos ↔ a ∈ all_packages repos2
  rw [mem_all_packages, mem_all_packages]
  constructor
  · rintro ⟨e, he, hp⟩
    exact ⟨e, hperm.mem_iff.mp he, hp⟩
  · rintro ⟨e, he, hp⟩
    exact ⟨e, hperm.mem_iff.mpr he, hp⟩

/-- Concrete mapping used to exhibit the iteration-order dependence of the
matrix builder. -/
def reposA : List (Str × List Str) :=
  [("a".toList, ["p".toList]), ("b".toList, ["q".toList])]

/-- The same mapping as reposA presented in the other iteration order. -/
def reposB : List (Str × List Str) :=
  [("b".toList, ["q".toList]), ("a".toList, ["p".toList])]

/-- Claim C1, counterexample: two iteration orders of the same
repository-to-package-list mapping give the same vocabulary but different
repo_order and a different (row-permuted) matrix, so the triple
(vocabulary, matrix, repo_order) is not identical regardless of the
iteration order of the input mapping. -/
theorem C1_counterexample :
    reposA.Perm reposB
    ∧ all_packages reposA = all_packages reposB
    ∧ repo_names reposA ≠ repo_names reposB
    ∧ featureMatrix reposA ≠ featureMatrix reposB := by
  refine ⟨?_, by decide, by decide, by decide⟩
  decide

/-- Claim C1, amended: the vocabulary is exactly the lexicographically
sorted list of the distinct package names of the mapping and is identical
regardless of the iteration order of the mapping; entry (i, j) of the
matrix is 1 iff vocabulary j belongs to the package list of row i; but
repo_order is the iteration order itself, so repo_order and the matrix
rows follow the iteration order rather than being invariant under it. -/
theorem C1_matrix_builder (repos : List (Str × List Str))
    (h : (repos.map Prod.fst).Nodup) :
    (all_packages repos).Pairwise (fun a b => lexLe a b = true)
    ∧ (all_packages repos).Nodup
    ∧ (∀ p, p ∈ all_packages repos ↔ ∃ e ∈ repos, p ∈ e.2)
    ∧ (∀ repos2 : List (Str × List Str), repos.Perm repos2 →
        all_packages repos = all_packages repos2)
    ∧ repo_names repos = repos.map Prod.fst
    ∧ (featureMatrix repos).length = repos.length
    ∧ (∀ i, i < repos.length →
        ((featureMatrix repos).getD i []).length = (all_packages repos).length)
    ∧ (∀ i j, i < repos.length → j < (all_packages repos).length →
        ((featureMatrix repos).getD i []).getD j 0 =
          if (all_packages repos).getD j [] ∈ (repos.map Prod.snd).getD i []
          then 1 else 0) := by
  refine ⟨sortStr_pairwise _, all_packages_nodup repos, mem_all_packages repos,
    all_packages_perm repos, rfl, by simp [featureMatrix, repo_names], ?_, ?_⟩
  · intro i hi
    rw [featureMatrix_getD repos h i hi, buildRow_length]
  · intro i j hi hj
    rw [featureMatrix_getD repos h i hi,
      buildRow_getD (all_packages repos) (all_packages_nodup repos) _ j hj]

/-- Witness for the amended claim C1 at a concrete mapping. -/
theorem C1_matrix_builder_witness :
    (reposA.map Prod.fst).Nodup
    ∧ ((all_packages reposA).Pairwise (fun a b => lexLe a b = true)
    ∧ (all_packages reposA).Nodup
    ∧ (∀ p, p ∈ all_packages reposA ↔ ∃ e ∈ reposA, p ∈ e.2)
    ∧ (∀ repos2 : List (Str × List Str), reposA.Perm repos2 →
        all_packages reposA = all_packages repos2)
    ∧ repo_names reposA = reposA.map Prod.fst
    ∧ (featureMatrix reposA).length = reposA.length
    ∧ (∀ i, i < reposA.length →
        ((featureMatrix reposA).getD i []).length = (all_packages reposA).length)
    ∧ (∀ i j, i < reposA.length → j < (all_packages reposA).length →
        ((featureMatrix reposA).getD i []).getD j 0 =
          if (all_packages reposA).getD j [] ∈ (reposA.map Prod.snd).getD i []
          then 1 else 0)) :=
  ⟨by decide, C1_matrix_builder reposA (by decide)⟩

/-- Claim C2, counterexample: on a line consisting of a space, a dash and
a letter, the code strips the line first and skips it as an option flag,
while the claimed step order (skip checks before any trimming) keeps it. -/
theorem C2_counterexample :
    extract_packages_from_requirements " -x".toList ≠ requirementsClaimSpec " -x".toList
    ∧ extract_packages_from_requirements " -x".toList = []
    ∧ requirementsClaimSpec " -x".toList = ["-x".toList] := by
  refine ⟨by decide, by decide, by decide⟩

/-- Claim C2, amended: the parser returns exactly the tokens obtained by
splitting into lines, trimming each line of surrounding whitespace,
skipping blank lines and lines starting with hash or dash, stripping
inline hash comments (a hash preceded by whitespace), truncating at the
first comparator, trimming, lower-casing, and dropping empty tokens. -/
theorem C2_requirements (text : Str) :
    extract_packages_from_requirements text = requirementsAmendedSpec text := by
  unfold extract_packages_from_requirements requirementsAmendedSpec
  exact filterMap_eq_passes (splitLines text)

/-- Repository fixture whose only file is a malformed setup.cfg. -/
def cfgRepo : Repo :=
  ⟨"r".toList, fun n => if n = "setup.cfg".toList then some "garbage".toList else none⟩

/-- Degenerate literal evaluator: every evaluation raises. -/
def litEvalNone : LitEval := fun _ => none

/-- Degenerate toml loader: every parse raises. -/
def tomlLoadsNone : TomlLoads := fun _ => none

/-- A repository with its setup.cfg candidate removed from the content
source. -/
def dropCfg (repo : Repo) : Repo :=
  ⟨repo.full_name, fun n => if n = "setup.cfg".toList then none else repo.fetch n⟩

/-- Claim C3, counterexample: the setup.cfg parser raises instead of
returning an empty list, both on malformed INI input (no section header)
and on well-formed input lacking the options section (has_option raises
NoSectionError). -/
theorem C3_counterexample :
    extract_packages_from_setup_cfg "garbage".toList
      = .error .missingSectionHeader
    ∧ extract_packages_from_setup_cfg "[other]\nx = 1".toList
      = .error .noSection := by
  refine ⟨by decide, by decide⟩

theorem extract_from_file_cfg (le : LitEval) (tl : TomlLoads) (t : Str) :
    extract_from_file le tl "setup.cfg".toList t
      = extract_packages_from_setup_cfg t := rfl

/-- Claim C3, amended: the requirements, setup.py and pyproject parsers
return a list for every input and never raise; the setup.cfg parser can
raise, but the per-file try of process_repo catches the exception and
skips the file, so processing of the remaining candidates and of other
repositories continues unchanged. -/
theorem C3_parsers :
    (∀ (le : LitEval) (tl : TomlLoads) (text : Str),
      (extract_from_file le tl "requirements.txt".toList text).isOk = true
      ∧ (extract_from_file le tl "setup.py".toList text).isOk = true
      ∧ (extract_from_file le tl "pyproject.toml".toList text).isOk = true)
    ∧ (∀ (le : LitEval) (tl : TomlLoads) (repo : Repo),
        ((repo.fetch "setup.cfg".toList).all
          (fun t => !(extract_packages_from_setup_cfg t).isOk)) = true →
        process_repo le tl repo = process_repo le tl (dropCfg repo)) := by
  constructor
  · intro le tl text
    exact ⟨rfl, rfl, rfl⟩
  · intro le tl repo hcfg
    have hfetch : ∀ n : Str, n ≠ "setup.cfg".toList →
        (dropCfg repo).fetch n = repo.fetch n := by
      intro n hn
      unfold dropCfg
      dsimp only
      rw [if_neg hn]
    have h1 : repoFilePackages le tl repo "setup.cfg".toList = [] := by
      unfold repoFilePackages
      cases hf : repo.fetch "setup.cfg".toList with
      | none => rfl
      | some t =>
        have hko : (extract_packages_from_setup_cfg t).isOk = false := by
          rw [hf] at hcfg
          simpa using hcfg
        change (match extract_from_file le tl "setup.cfg".toList t with
          | Except.ok pkgs => pkgs
          | Except.error _ => []) = []
        rw [extract_from_file_cfg]
        cases he : extract_packages_from_setup_cfg t with
        | ok l => rw [he] at hko; exact absurd hko (by simp [Except.isOk, Except.toBool])
        | error e => rfl
    have h2 : repoFilePackages le tl (dropCfg repo) "setup.cfg".toList = [] := by
      unfold repoFilePackages dropCfg
      simp
    have e1 : repoFilePackages le tl (dropCfg repo) "requirements.txt".toList
        = repoFilePackages le tl repo "requirements.txt".toList := by
      unfold repoFilePackages
      rw [hfetch _ (by decide)]
    have e2 : repoFilePackages le tl (dropCfg repo) "setup.py".toList
        = repoFilePackages le tl repo "setup.py".toList := by
      unfold repoFilePackages
      rw [hfetch _ (by decide)]
    have e4 : repoFilePackages le tl (dropCfg repo) "pyproject.toml".toList
        = repoFilePackages le tl repo "pyproject.toml".toList := by
      unfold repoFilePackages
      rw [hfetch _ (by decide)]
    have hagg : aggPackages le tl repo = aggPackages le tl (dropCfg repo) := by
      unfold aggPackages dependency_files
      simp only [List.map_cons, List.map_nil, List.flatten_cons, List.flatten_nil]
      rw [h1, h2, e1, e2, e4]
    unfold process_repo
    rw [hagg]
    rfl

/-- Witness for the amended claim C3: a repository whose setup.cfg fetch
yields malformed INI text is processed exactly as if the file were
absent. -/
theorem C3_parsers_witness :
    ((cfgRepo.fetch "setup.cfg".toList).all
      (fun t => !(extract_packages_from_setup_cfg t).isOk)) = true
    ∧ process_repo litEvalNone tomlLoadsNone cfgRepo
        = process_repo litEvalNone tomlLoadsNone (dropCfg cfgRepo) :=
  ⟨by decide, C3_parsers.2 litEvalNone tomlLoadsNone cfgRepo (by decide)⟩

theorem lookup_mapReplace (k : Str) (v : List Str) :
    ∀ (m : List (Str × List Str)) (n : Str),
    List.lookup n (m.map (fun p => if p.1 = k then (p.1, v) else p))
      = if n = k then (if (List.lookup k m).isSome then some v else none)
        else List.lookup n m := by
  intro m
  induction m with
  | nil =>
    intro n
    by_cases h : n = k <;> simp [List.lookup, h]
  | cons e m ih =>
    intro n
    cases e with
    | mk a b =>
      by_cases ha : a = k
      · subst ha
        simp only [List.map_cons, if_pos rfl]
        by_cases hn : n = a
        · subst hn
          simp [List.lookup, if_pos rfl]
        · have hbn : (n == a) = false := by rw [beq_eq_false_iff_ne]; exact hn
          simp only [List.lookup, hbn, ih n, if_neg hn]
      · simp only [List.map_cons, if_neg ha]
        by_cases hn : n = a
        · subst hn
          have hnk : n ≠ k := ha
          have hka : (k == n) = false := by
            rw [beq_eq_false_iff_ne]; exact fun he => ha he.symm
          simp [List.lookup, hka, if_neg hnk]
        · have hbn : (n == a) = false := by rw [beq_eq_false_iff_ne]; exact hn
          have hka : (k == a) = false := by
            rw [beq_eq_false_iff_ne]; exact fun he => ha he.symm
          simp only [List.lookup, hbn, hka, ih n]

theorem lookup_append_str (n : Str) :
    ∀ (l1 l2 : List (Str × List Str)),
    List.lookup n (l1 ++ l2)
      = match List.lookup n l1 with
        | some v => some v
        | none => List.lookup n l2 := by
  intro l1
  induction l1 with
  | nil => intro l2; rfl
  | cons e l1 ih =>
    intro l2
    cases e with
    | mk a b =>
      by_cases hn : n = a
      · subst hn
        simp [List.lookup]
      · have hbn : (n == a) = false := by rw [beq_eq_false_iff_ne]; exact hn
        simp only [List.cons_append, List.lookup, hbn]
        exact ih l2

theorem insertResult_lookup (m : List (Str × List Str)) (k : Str) (v : List Str)
    (n : Str) :
    List.lookup n (insertResult m k v)
      = if n = k then some v else List.lookup n m := by
  unfold insertResult
  by_cases hs : (List.lookup k m).isSome = true
  · rw [if_pos hs, lookup_mapReplace, hs]
    simp
  · rw [if_neg hs, lookup_append_str]
    by_cases hn : n = k
    · subst hn
      cases hm : List.lookup n m with
      | some w => rw [hm] at hs; simp at hs
      | none => simp [List.lookup, if_pos rfl]
    · have hbn : (n == k) = false := by rw [beq_eq_false_iff_ne]; exact hn
      cases hm : List.lookup n m with
      | some w => simp [if_neg hn]
      | none => simp [List.lookup, hbn, if_neg hn]

theorem insertResult_keys (m : List (Str × List Str)) (k : Str) (v : List Str) :
    (insertResult m k v).map Prod.fst
      = if (List.lookup k m).isSome then m.map Prod.fst
        else m.map Prod.fst ++ [k] := by
  unfold insertResult
  by_cases hs : (List.lookup k m).isSome = true
  · rw [if_pos hs, if_pos hs, List.map_map]
    apply List.map_congr_left
    intro p _
    by_cases h : p.1 = k <;> simp [Function.comp, h]
  · rw [if_neg hs, if_neg hs, List.map_append]
    rfl

theorem insertResult_length (m : List (Str × List Str)) (k : Str) (v : List Str) :
    (insertResult m k v).length ≤ m.length + 1 := by
  unfold insertResult
  by_cases hs : (List.lookup k m).isSome = true
  · rw [if_pos hs, List.length_map]
    omega
  · rw [if_neg hs, List.length_append]
    simp

theorem process_repo_some (le : LitEval) (tl : TomlLoads) (r : Repo)
    (n : Str) (pkgs : List Str) :
    process_repo le tl r = some (n, pkgs) →
    n = r.full_name ∧ pkgs = (aggPackages le tl r).dedup := by
  unfold process_repo
  intro h
  by_cases hd : (aggPackages le tl r).dedup = []
  · rw [show (let agg := (aggPackages le tl r).dedup;
      if agg = [] then none else some (r.full_name, agg))
        = (if (aggPackages le tl r).dedup = [] then none
            else some (r.full_name, (aggPackages le tl r).dedup)) from rfl,
      if_pos hd] at h
    exact Option.noConfusion h
  · rw [show (let agg := (aggPackages le tl r).dedup;
      if agg = [] then none else some (r.full_name, agg))
        = (if (aggPackages le tl r).dedup = [] then none
            else some (r.full_name, (aggPackages le tl r).dedup)) from rfl,
      if_neg hd] at h
    cases h
    exact ⟨rfl, rfl⟩

theorem depFold_lookup (le : LitEval) (tl : TomlLoads) :
    ∀ (raws : List Repo) (acc : List (Str × List Str)) (name : Str),
    (raws.map Repo.full_name).Nodup →
    List.lookup name (raws.foldl (depStep le tl) acc)
      = match raws.find? (fun r => r.full_name == name) with
        | none => List.lookup name acc
        | some r =>
          match process_repo le tl r with
          | none => List.lookup name acc
          | some (_, pkgs) => some pkgs := by
  intro raws
  induction raws with
  | nil => intro acc name _; rfl
  | cons r raws ih =>
    intro acc name hnd
    have hr : r.full_name ∉ raws.map Repo.full_name :=
      (List.nodup_cons.mp hnd).1
    have hrest : (raws.map Repo.full_name).Nodup := (List.nodup_cons.mp hnd).2
    simp only [List.foldl_cons]
    by_cases hpr : (r.full_name == name) = true
    · have hname : r.full_name = name := by rwa [beq_iff_eq] at hpr
      have hfc : List.find? (fun r2 => r2.full_name == name) (r :: raws) = some r := by
        simp [List.find?, hpr]
      rw [hfc]
      have hfind : raws.find? (fun r2 => r2.full_name == name) = none := by
        rw [List.find?_eq_none]
        intro x hx hbx
        have hex : x.full_name = name := by rwa [beq_iff_eq] at hbx
        exact hr (hname ▸ hex ▸ List.mem_map.mpr ⟨x, hx, rfl⟩)
      cases hp : process_repo le tl r with
      | none =>
        have hstep : depStep le tl acc r = acc := by unfold depStep; rw [hp]
        rw [hstep, ih acc name hrest, hfind]
        simp [hp]
      | some np =>
        cases np with
        | mk n pkgs =>
          obtain ⟨hn, _⟩ := process_repo_some le tl r n pkgs hp
          have hstep : depStep le tl acc r = insertResult acc n pkgs := by
            unfold depStep; rw [hp]
          rw [hstep, ih _ name hrest, hfind, insertResult_lookup,
            if_pos (hname ▸ hn.symm ▸ rfl)]
          simp [hp]
    · rw [List.find?_cons_of_neg _ (by simpa using hpr)]
      have hne : name ≠ r.full_name := by
        intro he
        exact hpr (by rw [he, beq_iff_eq])
      cases hp : process_repo le tl r with
      | none =>
        have hstep : depStep le tl acc r = acc := by unfold depStep; rw [hp]
        rw [hstep, ih acc name hrest]
      | some np =>
        cases np with
        | mk n pkgs =>
          obtain ⟨hn, _⟩ := process_repo_some le tl r n pkgs hp
          have hstep : depStep le tl acc r = insertResult acc n pkgs := by
            unfold depStep; rw [hp]
          have hlk : List.lookup name (insertResult acc n pkgs)
              = List.lookup name acc := by
            rw [insertResult_lookup, if_neg (by rw [hn]; exact hne)]
          rw [hstep, ih _ name hrest]
          cases hf2 : raws.find? (fun r2 => r2.full_name == name) with
          | none => rw [hlk]
          | some r2 =>
            cases hp2 : process_repo le tl r2 with
            | none => rw [hlk]
            | some np2 =>
              cases np2 with
              | mk n2 pkgs2 => simp [hp2]

theorem find?_self_of_nodup : ∀ (raws : List Repo) (repo : Repo),
    (raws.map Repo.full_name).Nodup → repo ∈ raws →
    raws.find? (fun r => r.full_name == repo.full_name) = some repo := by
  intro raws
  induction raws with
  | nil => intro repo _ h; exact absurd h (List.not_mem_nil _)
  | cons r raws ih =>
    intro repo hnd hmem
    have hr := (List.nodup_cons.mp hnd).1
    have hrest := (List.nodup_cons.mp hnd).2
    rcases List.mem_cons.mp hmem with rfl | hmem2
    · simp [List.find?]
    · have hne : (r.full_name == repo.full_name) = false := by
        rw [beq_eq_false_iff_ne]
        intro he
        exact hr (he ▸ List.mem_map.mpr ⟨repo, hmem2, rfl⟩)
      simp [List.find?, hne, ih repo hrest hmem2]

theorem lookup_isSome_iff (n : Str) : ∀ (m : List (Str × List Str)),
    (List.lookup n m).isSome = true ↔ n ∈ m.map Prod.fst := by
  intro m
  induction m with
  | nil => simp [List.lookup]
  | cons e m ih =>
    cases e with
    | mk a b =>
      by_cases hn : n = a
      · subst hn
        simp [List.lookup]
      · have hbn : (n == a) = false := beq_eq_false_iff_ne.mpr hn
        simp [List.lookup, hbn, ih, hn]

theorem depFold_keys (le : LitEval) (tl : TomlLoads) :
    ∀ (raws : List Repo) (acc : List (Str × List Str)),
    (acc.map Prod.fst).Nodup →
    ((raws.foldl (depStep le tl) acc).map Prod.fst).Nodup
    ∧ (∀ name ∈ (raws.foldl (depStep le tl) acc).map Prod.fst,
        name ∈ acc.map Prod.fst ∨ ∃ r ∈ raws, r.full_name = name)
    ∧ (raws.foldl (depStep le tl) acc).length ≤ acc.length + raws.length := by
  intro raws
  induction raws with
  | nil => intro acc h; exact ⟨h, fun name hn => Or.inl hn, by simp⟩
  | cons r raws ih =>
    intro acc hacc
    simp only [List.foldl_cons]
    have hkeys : (depStep le tl acc r).map Prod.fst = acc.map Prod.fst
        ∨ ((depStep le tl acc r).map Prod.fst = acc.map Prod.fst ++ [r.full_name]
            ∧ r.full_name ∉ acc.map Prod.fst) := by
      unfold depStep
      cases hp : process_repo le tl r with
      | none => exact Or.inl rfl
      | some np =>
        cases np with
        | mk n pkgs =>
          obtain ⟨hn, _⟩ := process_repo_some le tl r n pkgs hp
          rw [insertResult_keys]
          by_cases hs : (List.lookup n acc).isSome = true
          · rw [if_pos hs]; exact Or.inl rfl
          · rw [if_neg hs]
            refine Or.inr ⟨by rw [hn], ?_⟩
            intro hmem
            exact hs ((lookup_isSome_iff n acc).mpr (hn ▸ hmem))
    have hlen : (depStep le tl acc r).length ≤ acc.length + 1 := by
      unfold depStep
      cases hp : process_repo le tl r with
      | none =>
        show acc.length ≤ acc.length + 1
        omega
      | some np =>
        cases np with
        | mk n pkgs => exact insertResult_length acc n pkgs
    have hnd2 : ((depStep le tl acc r).map Prod.fst).Nodup := by
      rcases hkeys with hk | ⟨hk, hnm⟩
      · rw [hk]; exact hacc
      · rw [hk]
        rw [List.nodup_append]
        exact ⟨hacc, List.nodup_singleton _, by simpa using hnm⟩
    obtain ⟨ih1, ih2, ih3⟩ := ih (depStep le tl acc r) hnd2
    refine ⟨ih1, ?_, ?_⟩
    · intro name hname
      rcases ih2 name hname with hin | ⟨r2, hr2, he2⟩
      · rcases hkeys with hk | ⟨hk, _⟩
        · rw [hk] at hin; exact Or.inl hin
        · rw [hk] at hin
          rcases List.mem_append.mp hin with hin2 | hin2
          · exact Or.inl hin2
          · exact Or.inr ⟨r, List.mem_cons_self r raws,
              (List.mem_singleton.mp hin2).symm⟩
      · exact Or.inr ⟨r2, List.mem_cons_of_mem r hr2, he2⟩
    · calc (raws.foldl (depStep le tl) (depStep le tl acc r)).length
          ≤ (depStep le tl acc r).length + raws.length := ih3
        _ ≤ acc.length + 1 + raws.length := by omega
        _ = acc.length + (r :: raws).length := by simp; omega

/-- Claim C10: every key of the mapping returned by the aggregator is the
full name of some repository of the input, keys are never duplicated, and
the output has at most one entry per input repository. -/
theorem C10_keys (le : LitEval) (tl : TomlLoads) (raws : List Repo) :
    ((extract_dependencies le tl raws).map Prod.fst).Nodup
    ∧ (∀ name ∈ (extract_dependencies le tl raws).map Prod.fst,
        ∃ r ∈ raws, r.full_name = name)
    ∧ (extract_dependencies le tl raws).length ≤ raws.length := by
  obtain ⟨h1, h2, h3⟩ := depFold_keys le tl raws [] (by simp)
  exact ⟨h1, fun name hn => (h2 name hn).resolve_left (by simp), by simpa using h3⟩

/-- Claim C4: the aggregator probes the fixed candidate list, skips files
whose fetch or parse fails, concatenates the per-file package lists and
deduplicates with set semantics; a repository whose deduplicated list is
empty is absent from the output, and a repository with manifests in
several formats maps to the deduplicated union of its files. -/
theorem C4_aggregator (le : LitEval) (tl : TomlLoads) (raws : List Repo)
    (h : (raws.map Repo.full_name).Nodup) :
    (∀ repo ∈ raws,
      List.lookup repo.full_name (extract_dependencies le tl raws)
        = if aggPackages le tl repo = [] then none
          else some ((aggPackages le tl repo).dedup))
    ∧ (∀ repo : Repo, ∀ p : Str,
        p ∈ (aggPackages le tl repo).dedup ↔
          ∃ fn ∈ dependency_files, p ∈ repoFilePackages le tl repo fn)
    ∧ (∀ repo : Repo, ((aggPackages le tl repo).dedup).Nodup)
    ∧ (∀ name, (List.lookup name (extract_dependencies le tl raws)).isSome = true →
        ∃ repo ∈ raws, repo.full_name = name ∧ aggPackages le tl repo ≠ []) := by
  refine ⟨?_, ?_, ?_, ?_⟩
  · intro repo hmem
    unfold extract_dependencies
    rw [depFold_lookup le tl raws [] repo.full_name h,
      find?_self_of_nodup raws repo h hmem]
    by_cases hd : (aggPackages le tl repo).dedup = []
    · have hp : process_repo le tl repo = none := by
        unfold process_repo
        simp [hd]
      rw [if_pos ((List.dedup_eq_nil _).mp hd)]
      simp [hp, List.lookup]
    · have hp : process_repo le tl repo
          = some (repo.full_name, (aggPackages le tl repo).dedup) := by
        unfold process_repo
        simp [hd]
      rw [if_neg (fun he => hd (by rw [he]; rfl))]
      simp [hp]
  · intro repo p
    rw [List.mem_dedup]
    unfold aggPackages
    rw [List.mem_flatten]
    constructor
    · rintro ⟨l, hl, hp⟩
      rcases List.mem_map.mp hl with ⟨fn, hfn, rfl⟩
      exact ⟨fn, hfn, hp⟩
    · rintro ⟨fn, hfn, hp⟩
      exact ⟨_, List.mem_map.mpr ⟨fn, hfn, rfl⟩, hp⟩
  · intro repo
    exact List.nodup_dedup _
  · intro name hsome
    unfold extract_dependencies at hsome
    rw [depFold_lookup le tl raws [] name h] at hsome
    cases hf : raws.find? (fun r => r.full_name == name) with
    | none =>
      rw [hf] at hsome
      simp [List.lookup] at hsome
    | some r =>
      rw [hf] at hsome
      cases hp : process_repo le tl r with
      | none =>
        simp [hp, List.lookup] at hsome
      | some np =>
        have hmem : r ∈ raws := List.mem_of_find?_eq_some hf
        have hpred : (r.full_name == name) = true := by
          have hgen := List.find?_some hf
          simpa using hgen
        cases np with
        | mk n pkgs =>
          refine ⟨r, hmem, by rwa [beq_iff_eq] at hpred, ?_⟩
          intro he
          have hnone : process_repo le tl r = none := by
            unfold process_repo
            simp [he]
          rw [hnone] at hp
          exact Option.noConfusion hp

/-- Repository fixture for the aggregator witness: a requirements file
containing a duplicate. -/
def repoW : Repo :=
  ⟨"w".toList, fun n =>
    if n = "requirements.txt".toList then some "numpy\nscipy\nnumpy".toList
    else none⟩

/-- Witness for claim C4 at a concrete one-repository input. -/
theorem C4_aggregator_witness :
    (([repoW].map Repo.full_name).Nodup)
    ∧ ((∀ repo ∈ [repoW],
      List.lookup repo.full_name (extract_dependencies litEvalNone tomlLoadsNone [repoW])
        = if aggPackages litEvalNone tomlLoadsNone repo = [] then none
          else some ((aggPackages litEvalNone tomlLoadsNone repo).dedup))
    ∧ (∀ repo : Repo, ∀ p : Str,
        p ∈ (aggPackages litEvalNone tomlLoadsNone repo).dedup ↔
          ∃ fn ∈ dependency_files, p ∈ repoFilePackages litEvalNone tomlLoadsNone repo fn)
    ∧ (∀ repo : Repo, ((aggPackages litEvalNone tomlLoadsNone repo).dedup).Nodup)
    ∧ (∀ name,
        (List.lookup name (extract_dependencies litEvalNone tomlLoadsNone [repoW])).isSome
          = true →
        ∃ repo ∈ [repoW], repo.full_name = name
          ∧ aggPackages litEvalNone tomlLoadsNone repo ≠ [])) :=
  ⟨by decide, C4_aggregator litEvalNone tomlLoadsNone [repoW] (by decide)⟩

/-- One update of the Counter dictionary: increment the count of a key in
place, appending new keys, as dict insertion order behaves. -/
def bump : List (Str × Nat) → Str → List (Str × Nat)
  | [], p => [(p, 1)]
  | (q, c) :: rest, p =>
    if q = p then (q, c + 1) :: rest else (q, c) :: bump rest p

/-- Embedding of collections.Counter applied to a list: items in
first-encounter order with their multiplicities. -/
def counterItems (l : List Str) : List (Str × Nat) := l.foldl bump []

/-- First-encounter deduplication, used on the specification side to
describe the key order of the Counter. -/
def dedupFirstAux (seen : List Str) : List Str → List Str
  | [] => []
  | x :: xs =>
    if x ∈ seen then dedupFirstAux seen xs
    else x :: dedupFirstAux (x :: seen) xs

/-- Distinct elements of a list in first-encounter order. -/
def dedupFirst (l : List Str) : List Str := dedupFirstAux [] l

theorem dedupFirstAux_mem : ∀ (l : List Str) (seen : List Str) (a : Str),
    a ∈ dedupFirstAux seen l ↔ a ∈ l ∧ a ∉ seen := by
  intro l
  induction l with
  | nil => intro seen a; simp [dedupFirstAux]
  | cons x xs ih =>
    intro seen a
    by_cases hx : x ∈ seen
    · rw [dedupFirstAux, if_pos hx, ih]
      constructor
      · rintro ⟨ha, hs⟩
        exact ⟨List.mem_cons_of_mem x ha, hs⟩
      · rintro ⟨ha, hs⟩
        rcases List.mem_cons.mp ha with rfl | ha2
        · exact absurd hx hs
        · exact ⟨ha2, hs⟩
    · rw [dedupFirstAux, if_neg hx]
      by_cases hax : a = x
      · subst hax
        simp [hx]
      · rw [List.mem_cons]
        constructor
        · rintro (rfl | h)
          · exact absurd rfl hax
          · rcases (ih (x :: seen) a).mp h with ⟨ha, hs⟩
            exact ⟨List.mem_cons_of_mem x ha,
              fun hmem => hs (List.mem_cons_of_mem x hmem)⟩
        · rintro ⟨ha, hs⟩
          rcases List.mem_cons.mp ha with rfl | ha2
          · exact absurd rfl hax
          · refine Or.inr ((ih (x :: seen) a).mpr ⟨ha2, ?_⟩)
            intro hmem
            rcases List.mem_cons.mp hmem with rfl | h2
            · exact hax rfl
            · exact hs h2

theorem dedupFirstAux_nodup : ∀ (l : List Str) (seen : List Str),
    (dedupFirstAux seen l).Nodup := by
  intro l
  induction l with
  | nil => intro seen; simp [dedupFirstAux]
  | cons x xs ih =>
    intro seen
    by_cases hx : x ∈ seen
    · rw [dedupFirstAux, if_pos hx]
      exact ih seen
    · rw [dedupFirstAux, if_neg hx]
      refine List.nodup_cons.mpr ⟨?_, ih (x :: seen)⟩
      intro hmem
      exact ((dedupFirstAux_mem xs (x :: seen) x).mp hmem).2
        (List.mem_cons_self x seen)

theorem mem_dedupFirst (l : List Str) (a : Str) : a ∈ dedupFirst l ↔ a ∈ l := by
  unfold dedupFirst
  rw [dedupFirstAux_mem]
  simp

theorem dedupFirst_nodup (l : List Str) : (dedupFirst l).Nodup :=
  dedupFirstAux_nodup l []

theorem dedupFirstAux_append_one : ∀ (m : List Str) (seen : List Str) (x : Str),
    dedupFirstAux seen (m ++ [x])
      = dedupFirstAux seen m ++ (if x ∈ seen ∨ x ∈ m then [] else [x]) := by
  intro m
  induction m with
  | nil =>
    intro seen x
    by_cases hx : x ∈ seen
    · simp [dedupFirstAux, hx]
    · simp [dedupFirstAux, hx]
  | cons y ys ih =>
    intro seen x
    by_cases hy : y ∈ seen
    · rw [List.cons_append, dedupFirstAux, if_pos hy, dedupFirstAux, if_pos hy,
        ih seen x]
      by_cases hx : x ∈ seen ∨ x ∈ ys
      · rw [if_pos hx, if_pos]
        rcases hx with h | h
        · exact Or.inl h
        · exact Or.inr (List.mem_cons_of_mem y h)
      · rw [if_neg hx, if_neg]
        rintro (h | h)
        · exact hx (Or.inl h)
        · rcases List.mem_cons.mp h with rfl | h2
          · exact hx (Or.inl hy)
          · exact hx (Or.inr h2)
    · rw [List.cons_append, dedupFirstAux, if_neg hy, dedupFirstAux, if_neg hy,
        ih (y :: seen) x, List.cons_append]
      by_cases hx : x ∈ y :: seen ∨ x ∈ ys
      · rw [if_pos hx, if_pos]
        rcases hx with h | h
        · rcases List.mem_cons.mp h with rfl | h2
          · exact Or.inr (List.mem_cons_self x ys)
          · exact Or.inl h2
        · exact Or.inr (List.mem_cons_of_mem y h)
      · rw [if_neg hx, if_neg]
        rintro (h | h)
        · exact hx (Or.inl (List.mem_cons_of_mem y h))
        · rcases List.mem_cons.mp h with rfl | h2
          · exact hx (Or.inl (List.mem_cons_self x seen))
          · exact hx (Or.inr h2)

theorem bump_map_mem (x : Str) (c : Str → Nat) :
    ∀ (d : List Str), d.Nodup → x ∈ d →
    bump (d.map (fun p => (p, c p))) x
      = d.map (fun p => (p, if p = x then c p + 1 else c p)) := by
  intro d
  induction d with
  | nil => intro _ hx; exact absurd hx (List.not_mem_nil x)
  | cons q qs ih =>
    intro hnd hx
    rcases List.nodup_cons.mp hnd with ⟨hq, hqs⟩
    by_cases hqx : q = x
    · subst hqx
      simp only [List.map_cons, bump, if_true]
      congr 1
      apply List.map_congr_left
      intro p hp
      have hne : p ≠ q := fun he => hq (he ▸ hp)
      rw [if_neg hne]
    · rcases List.mem_cons.mp hx with rfl | hx2
      · exact absurd rfl hqx
      · simp only [List.map_cons, bump, if_neg hqx]
        rw [ih hqs hx2]

theorem bump_map_notmem (x : Str) (c : Str → Nat) :
    ∀ (d : List Str), x ∉ d →
    bump (d.map (fun p => (p, c p))) x
      = d.map (fun p => (p, c p)) ++ [(x, 1)] := by
  intro d
  induction d with
  | nil => intro _; rfl
  | cons q qs ih =>
    intro hx
    have hqx : q ≠ x := fun he => hx (he ▸ List.mem_cons_self q qs)
    simp only [List.map_cons, bump, if_neg hqx, List.cons_append]
    rw [ih (fun h => hx (List.mem_cons_of_mem q h))]

theorem bumpStep (m : List Str) (x : Str) :
    bump ((dedupFirst m).map (fun p => (p, m.count p))) x
      = (dedupFirst (m ++ [x])).map (fun p => (p, (m ++ [x]).count p)) := by
  have hcnt : ∀ p : Str, (m ++ [x]).count p = m.count p + if p = x then 1 else 0 := by
    intro p
    rw [List.count_append]
    by_cases hp : p = x
    · subst hp
      simp [List.count_singleton]
    · have : (x == p) = false := beq_eq_false_iff_ne.mpr (fun he => hp he.symm)
      simp [List.count_cons, this, hp]
  by_cases hx : x ∈ m
  · have hxd : x ∈ dedupFirst m := (mem_dedupFirst m x).mpr hx
    rw [bump_map_mem x (fun p => m.count p) (dedupFirst m) (dedupFirst_nodup m) hxd]
    have hd : dedupFirst (m ++ [x]) = dedupFirst m := by
      unfold dedupFirst
      rw [dedupFirstAux_append_one, if_pos (Or.inr hx), List.append_nil]
    rw [hd]
    apply List.map_congr_left
    intro p _
    rw [hcnt p]
    by_cases hp : p = x
    · rw [if_pos hp, if_pos hp]
    · rw [if_neg hp, if_neg hp, Nat.add_zero]
  · have hxd : x ∉ dedupFirst m := fun h => hx ((mem_dedupFirst m x).mp h)
    rw [bump_map_notmem x (fun p => m.count p) (dedupFirst m) hxd]
    have hd : dedupFirst (m ++ [x]) = dedupFirst m ++ [x] := by
      unfold dedupFirst
      rw [dedupFirstAux_append_one, if_neg]
      rintro (h | h)
      · exact List.not_mem_nil x h
      · exact hx h
    rw [hd, List.map_append]
    congr 1
    · apply List.map_congr_left
      intro p hp
      have hpx : p ≠ x := fun he => hx (he ▸ (mem_dedupFirst m p).mp hp)
      rw [hcnt p, if_neg hpx, Nat.add_zero]
    · simp only [List.map_cons, List.map_nil]
      rw [hcnt x, if_pos rfl]
      have : m.count x = 0 := List.count_eq_zero.mpr hx
      rw [this]

theorem counterFold : ∀ (l : List Str) (m : List Str),
    l.foldl bump ((dedupFirst m).map (fun p => (p, m.count p)))
      = (dedupFirst (m ++ l)).map (fun p => (p, (m ++ l).count p)) := by
  intro l
  induction l with
  | nil => intro m; simp
  | cons x xs ih =>
    intro m
    rw [List.foldl_cons, bumpStep m x, ih (m ++ [x]), List.append_assoc]
    rfl

/-- Specification reading of the Counter: its items are the distinct
elements in first-encounter order, each paired with its number of
occurrences. -/
theorem counterItems_eq (l : List Str) :
    counterItems l = (dedupFirst l).map (fun p => (p, l.count p)) := by
  have h := counterFold l []
  simpa [counterItems, dedupFirst, dedupFirstAux] using h

/-- Comparison modelling the ordering of most_common: descending by
count. -/
def cntGe (a b : Str × Nat) : Bool := b.2 ≤ a.2

/-- Insertion into a descending-sorted list, before the first element of
smaller-or-equal count (stable for the earlier element). -/
def insDesc (x : Str × Nat) : List (Str × Nat) → List (Str × Nat)
  | [] => [x]
  | y :: ys => if cntGe x y then x :: y :: ys else y :: insDesc x ys

/-- Stable sort by descending count; heapq.nlargest as used by
Counter.most_common is documented as equivalent to a stable reverse
sort on the key, which this realises. -/
def sortDesc (l : List (Str × Nat)) : List (Str × Nat) := l.foldr insDesc []

/-- Embedding of Counter(cluster_packages).most_common(n) as a function of
the underlying occurrence list. -/
def most_common (n : Nat) (l : List Str) : List (Str × Nat) :=
  (sortDesc (counterItems l)).take n

theorem insDesc_perm (x : Str × Nat) (l : List (Str × Nat)) :
    (insDesc x l).Perm (x :: l) := by
  induction l with
  | nil => exact List.Perm.refl _
  | cons y ys ih =>
    by_cases h : cntGe x y = true
    · simp [insDesc, h]
    · simp only [insDesc, h, if_false]
      exact (ih.cons y).trans (List.Perm.swap x y ys)

theorem pairwise_insDesc (x : Str × Nat) (l : List (Str × Nat))
    (h : l.Pairwise (fun a b => b.2 ≤ a.2)) :
    (insDesc x l).Pairwise (fun a b => b.2 ≤ a.2) := by
  induction l with
  | nil => simp [insDesc]
  | cons y ys ih =>
    rcases List.pairwise_cons.mp h with ⟨hy, hys⟩
    by_cases hxy : cntGe x y = true
    · have hxy2 : y.2 ≤ x.2 := by simpa [cntGe] using hxy
      simp only [insDesc, hxy, if_true]
      refine List.pairwise_cons.mpr ⟨?_, h⟩
      intro b hb
      rcases List.mem_cons.mp hb with rfl | hb2
      · exact hxy2
      · exact le_trans (hy b hb2) hxy2
    · have hyx : x.2 ≤ y.2 := by
        have h2 : ¬y.2 ≤ x.2 := by simpa [cntGe] using hxy
        omega
      simp only [insDesc, hxy, if_false]
      refine List.pairwise_cons.mpr ⟨?_, ih hys⟩
      intro b hb
      have hb' : b ∈ x :: ys := (insDesc_perm x ys).mem_iff.mp hb
      rcases List.mem_cons.mp hb' with rfl | hb2
      · exact hyx
      · exact hy b hb2

theorem sortDesc_perm (l : List (Str × Nat)) : (sortDesc l).Perm l := by
  induction l with
  | nil => exact List.Perm.refl _
  | cons x xs ih => exact (insDesc_perm x (sortDesc xs)).trans (ih.cons x)

theorem sortDesc_pairwise (l : List (Str × Nat)) :
    (sortDesc l).Pairwise (fun a b => b.2 ≤ a.2) := by
  induction l with
  | nil => simp [sortDesc]
  | cons x xs ih => exact pairwise_insDesc x (sortDesc xs) ih

theorem filter_insDesc (c : Nat) (x : Str × Nat) :
    ∀ (l : List (Str × Nat)),
    (insDesc x l).filter (fun pr => pr.2 == c)
      = if x.2 = c then x :: l.filter (fun pr => pr.2 == c)
        else l.filter (fun pr => pr.2 == c) := by
  intro l
  induction l with
  | nil =>
    by_cases hx : x.2 = c
    · simp [insDesc, List.filter, hx]
    · have : (x.2 == c) = false := beq_eq_false_iff_ne.mpr hx
      simp [insDesc, List.filter, this, hx]
  | cons y ys ih =>
    by_cases hg : cntGe x y = true
    · simp only [insDesc, hg, if_true]
      by_cases hx : x.2 = c
      · have hb : (x.2 == c) = true := beq_iff_eq.mpr hx
        simp [List.filter, hb, hx]
      · have hb : (x.2 == c) = false := beq_eq_false_iff_ne.mpr hx
        simp [List.filter, hb, hx]
    · have hyx : x.2 < y.2 := by
        have h2 : ¬y.2 ≤ x.2 := by simpa [cntGe] using hg
        omega
      simp only [insDesc, hg, if_false]
      by_cases hy : y.2 = c
      · have hbx : (x.2 == c) = false := by
          rw [beq_eq_false_iff_ne]
          intro he
          omega
        have hby : (y.2 == c) = true := beq_iff_eq.mpr hy
        have hxne : ¬x.2 = c := by intro he; omega
        simp only [List.filter, hby, ih, if_neg hxne]
      · have hby : (y.2 == c) = false := beq_eq_false_iff_ne.mpr hy
        simp only [List.filter, hby, ih]

theorem sortDesc_stable (c : Nat) (l : List (Str × Nat)) :
    (sortDesc l).filter (fun pr => pr.2 == c) = l.filter (fun pr => pr.2 == c) := by
  induction l with
  | nil => rfl
  | cons x xs ih =>
    show (insDesc x (sortDesc xs)).filter (fun pr => pr.2 == c)
      = (x :: xs).filter (fun pr => pr.2 == c)
    rw [filter_insDesc]
    by_cases hx : x.2 = c
    · have hb : (x.2 == c) = true := beq_iff_eq.mpr hx
      rw [if_pos hx, ih]
      simp [List.filter, hb]
    · have hb : (x.2 == c) = false := beq_eq_false_iff_ne.mpr hx
      rw [if_neg hx, ih]
      simp [List.filter, hb]

/-- Embedding of cluster_repo_map.setdefault(label, []).append(repo) from
src/main.py. -/
def setdefaultAppend (m : List (Nat × List Str)) (lab : Nat) (r : Str) :
    List (Nat × List Str) :=
  if (List.lookup lab m).isSome then
    m.map (fun p => if p.1 = lab then (p.1, p.2 ++ [r]) else p)
  else m ++ [(lab, [r])]

/-- Embedding of the grouping loop of src/main.py: the repository names
zipped with their labels, grouped by label in first-encounter order. -/
def cluster_repo_map (pairs : List (Str × Nat)) : List (Nat × List Str) :=
  pairs.foldl (fun acc pr => setdefaultAppend acc pr.2 pr.1) []

/-- Embedding of the summarisation loop of src/main.py: for every label of
cluster_repo_map, the concatenation of the package lists of its member
repositories is counted and the ten most common packages are kept. -/
def cluster_top_packages (repos : List (Str × List Str)) (clusters : List Nat) :
    List (Nat × List (Str × Nat)) :=
  (cluster_repo_map ((repo_names repos).zip clusters)).map (fun p =>
    (p.1, most_common 10
      ((p.2.map (fun r => (List.lookup r repos).getD [])).flatten)))

theorem lookup_mapAppendVal (lab : Nat) (r : Str) :
    ∀ (m : List (Nat × List Str)) (lab' : Nat),
    List.lookup lab' (m.map (fun p => if p.1 = lab then (p.1, p.2 ++ [r]) else p))
      = if lab' = lab then (List.lookup lab m).map (fun v => v ++ [r])
        else List.lookup lab' m := by
  intro m
  induction m with
  | nil =>
    intro lab'
    by_cases h : lab' = lab <;> simp [List.lookup, h]
  | cons e m ih =>
    intro lab'
    cases e with
    | mk a b =>
      by_cases ha : a = lab
      · subst ha
        simp only [List.map_cons, if_pos rfl]
        by_cases hl : lab' = a
        · subst hl
          simp [List.lookup]
        · have hb : (lab' == a) = false := beq_eq_false_iff_ne.mpr hl
          simp only [List.lookup, hb, ih lab', if_neg hl]
      · simp only [List.map_cons, if_neg ha]
        by_cases hl : lab' = a
        · subst hl
          have hne : lab' ≠ lab := ha
          have hb2 : (lab == lab') = false :=
            beq_eq_false_iff_ne.mpr (fun he => ha he.symm)
          simp [List.lookup, hb2, if_neg hne]
        · have hb : (lab' == a) = false := beq_eq_false_iff_ne.mpr hl
          have hb2 : (lab == a) = false :=
            beq_eq_false_iff_ne.mpr (fun he => ha he.symm)
          simp only [List.lookup, hb, hb2, ih lab']

theorem lookup_append_lab (n : Nat) :
    ∀ (l1 l2 : List (Nat × List Str)),
    List.lookup n (l1 ++ l2)
      = match List.lookup n l1 with
        | some v => some v
        | none => List.lookup n l2 := by
  intro l1
  induction l1 with
  | nil => intro l2; rfl
  | cons e l1 ih =>
    intro l2
    cases e with
    | mk a b =>
      by_cases hn : n = a
      · subst hn
        simp [List.lookup]
      · have hb : (n == a) = false := beq_eq_false_iff_ne.mpr hn
        simp only [List.cons_append, List.lookup, hb]
        exact ih l2

theorem setdefaultAppend_lookup (m : List (Nat × List Str)) (lab : Nat) (r : Str)
    (lab' : Nat) :
    List.lookup lab' (setdefaultAppend m lab r)
      = if lab' = lab then some ((List.lookup lab m).getD [] ++ [r])
        else List.lookup lab' m := by
  unfold setdefaultAppend
  by_cases hs : (List.lookup lab m).isSome = true
  · rw [if_pos hs, lookup_mapAppendVal]
    by_cases hl : lab' = lab
    · rw [if_pos hl, if_pos hl]
      cases hm : List.lookup lab m with
      | some v => rfl
      | none => rw [hm] at hs; simp at hs
    · rw [if_neg hl, if_neg hl]
  · rw [if_neg hs, lookup_append_lab]
    by_cases hl : lab' = lab
    · subst hl
      cases hm : List.lookup lab' m with
      | some v => rw [hm] at hs; simp at hs
      | none => simp [List.lookup, if_pos rfl]
    · have hb : (lab' == lab) = false := beq_eq_false_iff_ne.mpr hl
      cases hm : List.lookup lab' m with
      | some v => simp [if_neg hl]
      | none => simp [List.lookup, hb, if_neg hl]

/-- Member repositories of one label in the zipped list, in repo_order. -/
def membersOf (pairs : List (Str × Nat)) (lab : Nat) : List Str :=
  (pairs.filter (fun pr => pr.2 == lab)).map Prod.fst

theorem cluster_repo_map_fold (lab : Nat) :
    ∀ (pairs : List (Str × Nat)) (acc : List (Nat × List Str)),
    List.lookup lab (pairs.foldl (fun a pr => setdefaultAppend a pr.2 pr.1) acc)
      = match List.lookup lab acc with
        | some v => some (v ++ membersOf pairs lab)
        | none =>
          if membersOf pairs lab = [] then none else some (membersOf pairs lab) := by
  intro pairs
  induction pairs with
  | nil =>
    intro acc
    simp only [List.foldl_nil]
    cases hm : List.lookup lab acc with
    | some v => simp [membersOf]
    | none => simp [membersOf]
  | cons pr pairs ih =>
    intro acc
    cases pr with
    | mk rname rlab =>
      simp only [List.foldl_cons]
      rw [ih (setdefaultAppend acc rlab rname), setdefaultAppend_lookup]
      by_cases hl : lab = rlab
      · subst hl
        have hmm : membersOf ((rname, lab) :: pairs) lab
            = rname :: membersOf pairs lab := by
          simp [membersOf, List.filter]
        rw [if_pos rfl, hmm]
        cases hm : List.lookup lab acc with
        | some v => simp
        | none =>
          simp only [Option.getD_none, List.nil_append]
          rw [if_neg (by simp)]
          simp
      · have hmm : membersOf ((rname, rlab) :: pairs) lab = membersOf pairs lab := by
          have hb : (rlab == lab) = false :=
            beq_eq_false_iff_ne.mpr (fun he => hl he.symm)
          simp [membersOf, List.filter, hb]
        rw [if_neg hl, hmm]

theorem cluster_repo_map_lookup (pairs : List (Str × Nat)) (lab : Nat) :
    List.lookup lab (cluster_repo_map pairs)
      = if membersOf pairs lab = [] then none else some (membersOf pairs lab) := by
  unfold cluster_repo_map
  rw [cluster_repo_map_fold lab pairs []]
  rfl

theorem lookup_map_entry (m : List (Nat × List Str))
    (f : Nat → List Str → List (Str × Nat)) (lab : Nat) :
    List.lookup lab (m.map (fun p => (p.1, f p.1 p.2)))
      = (List.lookup lab m).map (f lab) := by
  induction m with
  | nil => rfl
  | cons e m ih =>
    cases e with
    | mk a b =>
      by_cases hl : lab = a
      · subst hl
        simp [List.lookup]
      · have hb : (lab == a) = false := beq_eq_false_iff_ne.mpr hl
        simp only [List.map_cons, List.lookup, hb]
        exact ih

/-- Concatenation, in repo_order then within-repository order, of the
package lists of the member repositories of one label. -/
def clusterPkgs (repos : List (Str × List Str)) (clusters : List Nat)
    (lab : Nat) : List Str :=
  ((membersOf ((repo_names repos).zip clusters) lab).map
    (fun r => (List.lookup r repos).getD [])).flatten

/-- Specification-side item list of one cluster: the distinct packages in
first-encounter order, each with its occurrence count across the member
repositories. -/
def clusterSpecItems (repos : List (Str × List Str)) (clusters : List Nat)
    (lab : Nat) : List (Str × Nat) :=
  (dedupFirst (clusterPkgs repos clusters lab)).map
    (fun p => (p, (clusterPkgs repos clusters lab).count p))

/-- Claim C5: the summariser maps each label with at least one member to
the ten most frequent (package, frequency) pairs of the concatenated
member package lists, in descending frequency with ties kept in
first-encounter order (repo_order, then within-repository order), and
labels with no member are absent. -/
theorem C5_summarizer (repos : List (Str × List Str)) (clusters : List Nat)
    (hlen : clusters.length = repos.length) :
    (∀ lab, (List.lookup lab (cluster_top_packages repos clusters)).isSome = true
        ↔ lab ∈ clusters)
    ∧ (∀ lab, lab ∈ clusters →
        List.lookup lab (cluster_top_packages repos clusters)
          = some ((sortDesc (clusterSpecItems repos clusters lab)).take 10))
    ∧ (∀ lab v, List.lookup lab (cluster_top_packages repos clusters) = some v →
        v.length ≤ 10 ∧ v.Pairwise (fun a b => b.2 ≤ a.2))
    ∧ (∀ lab c, (sortDesc (clusterSpecItems repos clusters lab)).filter
          (fun pr => pr.2 == c)
        = (clusterSpecItems repos clusters lab).filter (fun pr => pr.2 == c)) := by
  have hsnd : ((repo_names repos).zip clusters).map Prod.snd = clusters := by
    apply List.map_snd_zip
    simp [repo_names, hlen]
  have hmem : ∀ lab,
      membersOf ((repo_names repos).zip clusters) lab = [] ↔ lab ∉ clusters := by
    intro lab
    unfold membersOf
    rw [List.map_eq_nil_iff, List.filter_eq_nil_iff]
    constructor
    · intro h hlab
      rw [← hsnd] at hlab
      rcases List.mem_map.mp hlab with ⟨pr, hpr, he⟩
      exact h pr hpr (by rw [beq_iff_eq]; exact he)
    · intro h pr hpr hb
      apply h
      rw [← hsnd]
      exact List.mem_map.mpr ⟨pr, hpr, by rwa [beq_iff_eq] at hb⟩
  have hlk : ∀ lab, List.lookup lab (cluster_top_packages repos clusters)
      = (if membersOf ((repo_names repos).zip clusters) lab = [] then none
         else some (membersOf ((repo_names repos).zip clusters) lab)).map
          (fun v => most_common 10
            ((v.map (fun r => (List.lookup r repos).getD [])).flatten)) := by
    intro lab
    unfold cluster_top_packages
    rw [lookup_map_entry (cluster_repo_map ((repo_names repos).zip clusters))
      (fun _ v => most_common 10
        ((v.map (fun r => (List.lookup r repos).getD [])).flatten)) lab,
      cluster_repo_map_lookup]
  have hval : ∀ lab, lab ∈ clusters →
      List.lookup lab (cluster_top_packages repos clusters)
        = some ((sortDesc (clusterSpecItems repos clusters lab)).take 10) := by
    intro lab hlab
    rw [hlk lab, if_neg (fun he => ((hmem lab).mp he) hlab)]
    unfold clusterSpecItems
    rw [← counterItems_eq]
    rfl
  refine ⟨?_, hval, ?_, ?_⟩
  · intro lab
    rw [hlk lab]
    by_cases he : membersOf ((repo_names repos).zip clusters) lab = []
    · rw [if_pos he]
      simp only [Option.map_none']
      constructor
      · intro h; simp at h
      · intro h; exact absurd ((hmem lab).mp he) (fun hn => hn h)
    · rw [if_neg he]
      simp only [Option.map_some']
      constructor
      · intro _
        by_contra hn
        exact he ((hmem lab).mpr hn)
      · intro _; rfl
  · intro lab v hv
    by_cases hlab : lab ∈ clusters
    · rw [hval lab hlab] at hv
      cases hv
      constructor
      · exact List.length_take_le 10 _
      · exact List.Pairwise.sublist (List.take_sublist 10 _) (sortDesc_pairwise _)
    · rw [hlk lab, if_pos ((hmem lab).mpr hlab)] at hv
      exact Option.noConfusion hv
  · intro lab c
    exact sortDesc_stable c (clusterSpecItems repos clusters lab)

/-- Concrete mapping for the summariser witness. -/
def reposC : List (Str × List Str) :=
  [("r1".toList, ["a".toList, "b".toList]),
   ("r2".toList, ["a".toList]),
   ("r3".toList, ["c".toList])]

/-- Concrete labelling for the summariser witness. -/
def clustersC : List Nat := [0, 0, 1]

/-- Witness for claim C5 at a concrete three-repository labelling. -/
theorem C5_summarizer_witness :
    clustersC.length = reposC.length
    ∧ ((∀ lab, (List.lookup lab (cluster_top_packages reposC clustersC)).isSome = true
        ↔ lab ∈ clustersC)
    ∧ (∀ lab, lab ∈ clustersC →
        List.lookup lab (cluster_top_packages reposC clustersC)
          = some ((sortDesc (clusterSpecItems reposC clustersC lab)).take 10))
    ∧ (∀ lab v, List.lookup lab (cluster_top_packages reposC clustersC) = some v →
        v.length ≤ 10 ∧ v.Pairwise (fun a b => b.2 ≤ a.2))
    ∧ (∀ lab c, (sortDesc (clusterSpecItems reposC clustersC lab)).filter
          (fun pr => pr.2 == c)
        = (clusterSpecItems reposC clustersC lab).filter (fun pr => pr.2 == c))) :=
  ⟨by decide, C5_summarizer reposC clustersC (by decide)⟩

/-- Modelled from the spec: the Partitioner of section 4.5 is realised in
the repository by sklearn KMeans, whose code is not under src/.  The
error raised when the cluster count exceeds the sample count (sklearn
validates its parameters before any clustering iteration). -/
inductive KMeansError where
  | invalidClusterCount
deriving DecidableEq

/-- Feature vectors over the rationals (the binary rows of the feature
matrix embed into them). -/
abbrev Vec := List ℚ

/-- Squared Euclidean distance of two vectors. -/
def dist2 (a b : Vec) : ℚ :=
  ((a.zip b).map (fun p => (p.1 - p.2) * (p.1 - p.2))).sum

/-- Modelled from the spec: index and value of the first minimum of the
distances from a point to the centroids (ties to the lowest index, as
numpy argmin behaves). -/
def argminAux (p : Vec) : List Vec → Option (Nat × ℚ)
  | [] => none
  | c :: cs =>
    match argminAux p cs with
    | none => some (0, dist2 p c)
    | some jm =>
      if dist2 p c ≤ jm.2 then some (0, dist2 p c) else some (jm.1 + 1, jm.2)

/-- Modelled from the spec: assignment of every point to its nearest
centroid. -/
def assign (cents : List Vec) (pts : List Vec) : List Nat :=
  pts.map (fun p => ((argminAux p cents).map Prod.fst).getD 0)

/-- Componentwise vector sum. -/
def vecAdd (a b : Vec) : Vec := List.zipWith (fun x y => x + y) a b

/-- Mean of the assigned points; a cluster left empty keeps its previous
centroid. -/
def meanOf (old : Vec) : List Vec → Vec
  | [] => old
  | p :: ps =>
    (ps.foldl vecAdd p).map (fun x => x / (((ps.length + 1 : Nat) : ℚ)))

/-- Modelled from the spec: one relocation step, recomputing every
centroid as the mean of the points assigned to it. -/
def lloydStep (pts : List Vec) (cents : List Vec) : List Vec :=
  let labels := assign cents pts
  (List.range cents.length).map (fun j =>
    meanOf (cents.getD j [])
      (((pts.zip labels).filter (fun pl => pl.2 == j)).map Prod.fst))

/-- Modelled from the spec: iterate relocation until the centroids are
stable or the iteration cap is reached. -/
def lloydIter (pts : List Vec) : Nat → List Vec → List Vec
  | 0, cents => cents
  | fuel + 1, cents =>
    let c2 := lloydStep pts cents
    if c2 = cents then cents else lloydIter pts fuel c2

/-- Modelled from the spec: deterministic seeded initialisation choosing k
starting centroids among the points. -/
def initCents (seed : Nat) (pts : List Vec) (k : Nat) : List Vec :=
  (List.range k).map (fun t => pts.getD ((seed + t) % pts.length) [])

/-- Modelled from the spec: KMeans fit.  A fixed random_state overrides
the ambient random state; the parameter check rejecting k = 0 and
k greater than the sample count happens before any numeric work. -/
def kmeans_fit_cents (random_state : Option Nat) (ambientSeed : Nat)
    (pts : List Vec) (k : Nat) : Except KMeansError (List Vec) :=
  if k = 0 ∨ pts.length < k then .error .invalidClusterCount
  else .ok (lloydIter pts 300 (initCents (random_state.getD ambientSeed) pts k))

/-- Modelled from the spec: KMeans fit_predict, the labels of the fitted
centroids. -/
def kmeans_fit_predict (random_state : Option Nat) (ambientSeed : Nat)
    (pts : List Vec) (k : Nat) : Except KMeansError (List Nat) :=
  match kmeans_fit_cents random_state ambientSeed pts k with
  | .error e => .error e
  | .ok cents => .ok (assign cents pts)

/-- Within-cluster sum of squared distances to the assigned centroid. -/
def inertia (pts : List Vec) (cents : List Vec) : ℚ :=
  (pts.map (fun p =>
    match argminAux p cents with
    | some jm => jm.2
    | none => 0)).sum

/-- Embedding of elbow_method from src/functions/cluster.py: KMeans with
the literal seed 42 for each k from 1 to max_k, recording the inertia
(the plotting sink is external and not modelled). -/
def elbow_method (ambientSeed : Nat) (pts : List Vec) (max_k : Nat) :
    Except KMeansError (List (Nat × ℚ)) :=
  (List.range' 1 max_k).mapM (fun k => do
    let cents ← kmeans_fit_cents (some 42) ambientSeed pts k
    pure (k, inertia pts cents))

/-- Embedding of the Partitioner call of src/main.py with its literal
random_state. -/
def clustersRun (ambientSeed : Nat) (pts : List Vec) (k : Nat) :
    Except KMeansError (List Nat) :=
  kmeans_fit_predict (some 8675309) ambientSeed pts k

theorem argminAux_lt (p : Vec) : ∀ (cs : List Vec) (j : Nat) (m : ℚ),
    argminAux p cs = some (j, m) → j < cs.length := by
  intro cs
  induction cs with
  | nil => intro j m h; exact Option.noConfusion h
  | cons c cs ih =>
    intro j m h
    unfold argminAux at h
    cases ha : argminAux p cs with
    | none =>
      rw [ha] at h
      change some (0, dist2 p c) = some (j, m) at h
      cases h
      simp
    | some jm =>
      rw [ha] at h
      change (if dist2 p c ≤ jm.2 then some (0, dist2 p c)
        else some (jm.1 + 1, jm.2)) = some (j, m) at h
      by_cases hd : dist2 p c ≤ jm.2
      · rw [if_pos hd] at h
        cases h
        simp
      · rw [if_neg hd] at h
        cases h
        have hlt := ih jm.1 jm.2 ha
        simpa using Nat.succ_lt_succ hlt

theorem argminAux_ne_none (p : Vec) (c : Vec) (cs : List Vec) :
    argminAux p (c :: cs) ≠ none := by
  unfold argminAux
  cases argminAux p cs with
  | none => simp
  | some jm =>
    change (if dist2 p c ≤ jm.2 then some (0, dist2 p c)
      else some (jm.1 + 1, jm.2)) ≠ none
    by_cases hd : dist2 p c ≤ jm.2
    · rw [if_pos hd]; simp
    · rw [if_neg hd]; simp

theorem assign_lt (cents : List Vec) (pts : List Vec) (hc : cents ≠ []) :
    ∀ l ∈ assign cents pts, l < cents.length := by
  intro l hl
  rcases List.mem_map.mp hl with ⟨p, _, rfl⟩
  cases ha : argminAux p cents with
  | none =>
    cases cents with
    | nil => exact absurd rfl hc
    | cons c cs => exact absurd ha (argminAux_ne_none p c cs)
  | some jm =>
    cases jm with
    | mk j m =>
      simpa using argminAux_lt p cents j m ha

theorem lloydStep_length (pts : List Vec) (cents : List Vec) :
    (lloydStep pts cents).length = cents.length := by
  simp [lloydStep]

theorem lloydIter_length (pts : List Vec) :
    ∀ (fuel : Nat) (cents : List Vec),
    (lloydIter pts fuel cents).length = cents.length := by
  intro fuel
  induction fuel with
  | zero => intro cents; rfl
  | succ fuel ih =>
    intro cents
    unfold lloydIter
    by_cases he : lloydStep pts cents = cents
    · rw [if_pos he]
    · rw [if_neg he, ih (lloydStep pts cents), lloydStep_length]

theorem initCents_length (seed : Nat) (pts : List Vec) (k : Nat) :
    (initCents seed pts k).length = k := by
  simp [initCents]

/-- Claim C6 (modelled from the spec, since the repository delegates the
Partitioner to sklearn): requesting more clusters than rows makes the
call fail with the explicit configuration error, raised by the parameter
validation before any clustering iteration. -/
theorem C6_reject_large_k (rs : Option Nat) (amb : Nat) (pts : List Vec)
    (k : Nat) (h : pts.length < k) :
    kmeans_fit_predict rs amb pts k = .error .invalidClusterCount := by
  unfold kmeans_fit_predict kmeans_fit_cents
  rw [if_pos (Or.inr h)]

/-- Witness for claim C6 at one row and two requested clusters. -/
theorem C6_reject_large_k_witness :
    ([[(1 : ℚ)]] : List Vec).length < 2
    ∧ kmeans_fit_predict none 0 [[(1 : ℚ)]] 2 = .error .invalidClusterCount :=
  ⟨by decide, C6_reject_large_k none 0 [[(1 : ℚ)]] 2 (by decide)⟩

/-- Claim C7 (modelled from the spec, since the repository delegates the
Partitioner to sklearn): for every valid cluster count the output has one
label per row, every label lies in the contiguous range below k, and k = 1
gives every row the same single label. -/
theorem C7_labels (rs : Option Nat) (amb : Nat) (pts : List Vec) (k : Nat)
    (h1 : 1 ≤ k) (h2 : k ≤ pts.length) :
    ∃ labels, kmeans_fit_predict rs amb pts k = .ok labels
      ∧ labels.length = pts.length
      ∧ (∀ l ∈ labels, l < k)
      ∧ (k = 1 → ∀ l ∈ labels, l = 0) := by
  have hcond : ¬(k = 0 ∨ pts.length < k) := by omega
  have hred : kmeans_fit_predict rs amb pts k
      = .ok (assign (lloydIter pts 300 (initCents (rs.getD amb) pts k)) pts) := by
    unfold kmeans_fit_predict kmeans_fit_cents
    rw [if_neg hcond]
  have hlen : (lloydIter pts 300 (initCents (rs.getD amb) pts k)).length = k := by
    rw [lloydIter_length, initCents_length]
  have hne : lloydIter pts 300 (initCents (rs.getD amb) pts k) ≠ [] := by
    intro he
    rw [he] at hlen
    simp at hlen
    omega
  refine ⟨_, hred, by simp [assign], ?_, ?_⟩
  · intro l hl
    have hlt := assign_lt _ pts hne l hl
    rwa [hlen] at hlt
  · intro hk1 l hl
    have hlt := assign_lt _ pts hne l hl
    rw [hlen, hk1] at hlt
    omega

/-- Points fixture for the Partitioner witness. -/
def ptsW : List Vec := [[(1 : ℚ)], [(0 : ℚ)]]

/-- Witness for claim C7 at two rows and a single cluster. -/
theorem C7_labels_witness :
    (1 ≤ 1 ∧ 1 ≤ ptsW.length)
    ∧ (∃ labels, kmeans_fit_predict (some 8675309) 0 ptsW 1 = .ok labels
      ∧ labels.length = ptsW.length
      ∧ (∀ l ∈ labels, l < 1)
      ∧ (1 = 1 → ∀ l ∈ labels, l = 0)) :=
  ⟨⟨le_refl 1, by decide⟩, C7_labels (some 8675309) 0 ptsW 1 (le_refl 1) (by decide)⟩

/-- Claim C9 (modelled from the spec, since the repository delegates the
numeric work to sklearn): the seeds are literals in the code (42 in
elbow_method, 8675309 in main), so neither the elbow sequence nor the
partition labels depend on the ambient random state; two runs on the same
input are identical. -/
theorem C9_fixed_seed (amb1 amb2 : Nat) (pts : List Vec) (max_k k : Nat) :
    elbow_method amb1 pts max_k = elbow_method amb2 pts max_k
    ∧ clustersRun amb1 pts k = clustersRun amb2 pts k :=
  ⟨rfl, rfl⟩

/-- Extract the strings of a TOML array; none when a non-string occurs. -/
def strsOf : List TomlVal → Option (List Str)
  | [] => some []
  | .vStr s :: rest => (strsOf rest).map (fun ss => s :: ss)
  | _ :: _ => none

/-- A present table value. -/
def asTable : Option TomlVal → Option (List (Str × TomlVal))
  | some (.vTable t) => some t
  | _ => none

/-- A present array-of-strings value. -/
def asStrList : Option TomlVal → Option (List Str)
  | some (.vList l) => strsOf l
  | _ => none

/-- True exactly on string values. -/
def isStrVal : TomlVal → Bool
  | .vStr _ => true
  | _ => false

theorem optBind_some {α β : Type} (a : α) (f : α → Option β) :
    (some a).bind f = f a := rfl

theorem optBind_none {α β : Type} (f : α → Option β) :
    (none : Option α).bind f = none := rfl

theorem optMap_some {α β : Type} (a : α) (f : α → β) :
    (some a).map f = some (f a) := rfl

theorem optMap_none {α β : Type} (f : α → β) :
    (none : Option α).map f = none := rfl

theorem optGetD_some {α : Type} (a d : α) : (some a).getD d = a := rfl

theorem optGetD_none {α : Type} (d : α) : (none : Option α).getD d = d := rfl

theorem ifTrueEq {α : Type} (a b : α) : (if (true = true) then a else b) = a := rfl

theorem ifFalseEq {α : Type} (a b : α) : (if (false = true) then a else b) = b := rfl

/-- The flat dependency list of the primary location of claim C8, when it
exists. -/
def projectDepsList (data : List (Str × TomlVal)) : Option (List Str) :=
  (asTable (List.lookup keyProject data)).bind
    (fun pt => asStrList (List.lookup keyDependencies pt))

/-- Keys of the dependencies sub-table of a poetry table (the empty list
when the sub-table is absent). -/
def depsKeysOf (pt : List (Str × TomlVal)) : List Str :=
  ((asTable (List.lookup keyDependencies pt)).map
    (fun dt => dt.map Prod.fst)).getD []

/-- The poetry dependencies keys of the secondary location of claim C8,
when tool/poetry exists. -/
def poetryDepsKeys (data : List (Str × TomlVal)) : Option (List Str) :=
  ((asTable (List.lookup keyTool data)).bind
    (fun tt => asTable (List.lookup keyPoetry tt))).map depsKeysOf

/-- The pyproject parser as claim C8 words it: the primary flat list with
comparator truncation and lower-casing; otherwise the poetry keys,
excluding the sentinel python, with the same truncation and lower-casing;
empty on parse failure. -/
def pyprojectClaimSpec (tl : TomlLoads) (text : Str) : List Str :=
  match tl text with
  | none => []
  | some data =>
    match projectDepsList data with
    | some deps => deps.filterMap normDep
    | none =>
      match poetryDepsKeys data with
      | some keys => (keys.filter (fun k => k ≠ strPython)).filterMap normDep
      | none => []

/-- The pyproject parser as amended: the poetry branch lower-cases the
keys and drops those equal to python after lower-casing, applying no
comparator truncation and no trimming. -/
def pyprojectAmendedSpec (tl : TomlLoads) (text : Str) : List Str :=
  match tl text with
  | none => []
  | some data =>
    match projectDepsList data with
    | some deps => deps.filterMap normDep
    | none =>
      match poetryDepsKeys data with
      | some keys =>
        keys.filterMap (fun k =>
          if strLower k = strPython then none else some (strLower k))
      | none => []

/-- Shape of a dependencies entry of a poetry table assumed by the claim:
when present it is a table. -/
def wfDepsLookup : Option TomlVal → Bool
  | none => true
  | some (.vTable _) => true
  | some _ => false

/-- Shape of a poetry entry assumed by the claim. -/
def wfPoetryVal : TomlVal → Bool
  | .vTable pt => wfDepsLookup (List.lookup keyDependencies pt)
  | _ => false

/-- Shape of a looked-up poetry entry assumed by the claim. -/
def wfPoetryLookup : Option TomlVal → Bool
  | none => true
  | some pv => wfPoetryVal pv

/-- Shape of a tool entry assumed by the claim. -/
def wfToolVal : TomlVal → Bool
  | .vTable tt => wfPoetryLookup (List.lookup keyPoetry tt)
  | _ => false

/-- Shape of a looked-up tool entry assumed by the claim. -/
def wfTool : Option TomlVal → Bool
  | none => true
  | some tv => wfToolVal tv

/-- Shape of a project dependencies entry assumed by the claim: when
present it is an array of strings. -/
def wfDepsVal : TomlVal → Bool
  | .vList l => l.all isStrVal
  | _ => false

/-- Shape of a looked-up project dependencies entry. -/
def wfProjDepsLookup : Option TomlVal → Bool
  | none => true
  | some dv => wfDepsVal dv

/-- Shape of a project entry assumed by the claim. -/
def wfProjVal : TomlVal → Bool
  | .vTable pt => wfProjDepsLookup (List.lookup keyDependencies pt)
  | _ => false

/-- Shape of a looked-up project entry. -/
def wfProject : Option TomlVal → Bool
  | none => true
  | some pv => wfProjVal pv

/-- Well-formed parsed pyproject document for the purposes of claim C8. -/
def tomlWF (data : List (Str × TomlVal)) : Bool :=
  wfProject (List.lookup keyProject data) && wfTool (List.lookup keyTool data)

/-- Parsed document whose poetry dependencies table has a key containing
an equals sign (a quoted TOML key). -/
def tomlDataCx : List (Str × TomlVal) :=
  [(keyTool, .vTable
    [(keyPoetry, .vTable
      [(keyDependencies, .vTable [("foo=1".toList, .vOther)])])])]

/-- Toml loader fixture returning the counterexample document. -/
def tomlLoadsCx : TomlLoads := fun _ => some tomlDataCx

/-- Claim C8, counterexample: on a poetry dependencies key containing an
equals sign the code applies only lower-casing, while the claim demands
comparator truncation in that branch too, so the two disagree. -/
theorem C8_counterexample :
    extract_packages_from_pyproject tomlLoadsCx [] = ["foo=1".toList]
    ∧ pyprojectClaimSpec tomlLoadsCx [] = ["foo".toList]
    ∧ extract_packages_from_pyproject tomlLoadsCx []
        ≠ pyprojectClaimSpec tomlLoadsCx [] := by
  refine ⟨by decide, by decide, by decide⟩

theorem normDeps_strs : ∀ (l : List TomlVal), l.all isStrVal = true →
    normDeps l = .ok (l.filterMap (fun v =>
      match v with | .vStr s => normDep s | _ => none)) := by
  intro l
  induction l with
  | nil => intro _; rfl
  | cons v rest ih =>
    intro h
    rw [List.all_cons] at h
    obtain ⟨hv, hrest⟩ := Bool.and_eq_true_iff.mp h
    cases v with
    | vStr s =>
      rw [normDeps, ih hrest]
      simp only [List.filterMap_cons]
      cases normDep s <;> rfl
    | vList l2 => exact Bool.noConfusion hv
    | vTable t2 => exact Bool.noConfusion hv
    | vOther => exact Bool.noConfusion hv

theorem exBind_ok {α β : Type} (a : α) (f : α → Except PyErr β) :
    (Except.ok a >>= f) = f a := rfl

theorem poetryComp_keys : ∀ (d : List (Str × TomlVal)),
    poetryComp (d.map (fun kv => TomlVal.vStr kv.1))
      = .ok ((d.map Prod.fst).filterMap (fun k =>
          if strLower k = strPython then none else some (strLower k))) := by
  intro d
  induction d with
  | nil => rfl
  | cons kv rest ih =>
    simp only [List.map_cons]
    rw [poetryComp, ih, exBind_ok, List.filterMap_cons]
    by_cases hk : strLower kv.1 = strPython
    · rw [if_pos hk, if_pos hk]
    · rw [if_neg hk, if_neg hk]

theorem strsOf_filterMap : ∀ (l : List TomlVal) (ss : List Str),
    strsOf l = some ss →
    l.filterMap (fun v => match v with | .vStr s => normDep s | _ => none)
      = ss.filterMap normDep := by
  intro l
  induction l with
  | nil => intro ss h; cases h; rfl
  | cons v rest ih =>
    intro ss h
    cases v with
    | vStr s =>
      rw [strsOf] at h
      cases hr : strsOf rest with
      | none => rw [hr] at h; exact Option.noConfusion h
      | some ss2 =>
        rw [hr] at h
        change some (s :: ss2) = some ss at h
        cases h
        simp only [List.filterMap_cons]
        rw [ih ss2 hr]
    | vList l2 =>
      exact Option.noConfusion (show (none : Option (List Str)) = some ss from h)
    | vTable t2 =>
      exact Option.noConfusion (show (none : Option (List Str)) = some ss from h)
    | vOther =>
      exact Option.noConfusion (show (none : Option (List Str)) = some ss from h)

theorem strsOf_isSome : ∀ (l : List TomlVal), l.all isStrVal = true →
    ∃ ss, strsOf l = some ss := by
  intro l
  induction l with
  | nil => intro _; exact ⟨[], rfl⟩
  | cons v rest ih =>
    intro h
    rw [List.all_cons] at h
    obtain ⟨hv, hrest⟩ := Bool.and_eq_true_iff.mp h
    cases v with
    | vStr s =>
      obtain ⟨ss, hss⟩ := ih hrest
      exact ⟨s :: ss, by rw [strsOf, hss]; rfl⟩
    | vList l2 => exact Bool.noConfusion hv
    | vTable t2 => exact Bool.noConfusion hv
    | vOther => exact Bool.noConfusion hv

theorem poetryBranch_wf (data : List (Str × TomlVal))
    (hwt : wfTool (List.lookup keyTool data) = true) :
    poetryBranch data
      = .ok (match poetryDepsKeys data with
             | some keys =>
               keys.filterMap (fun k =>
                 if strLower k = strPython then none else some (strLower k))
             | none => []) := by
  cases hto : List.lookup keyTool data with
  | none =>
    have hs : poetryDepsKeys data = none := by
      simp only [poetryDepsKeys, hto, asTable, optBind_none, optMap_none]
    rw [hs]
    simp only [poetryBranch, hto, inCheck, exBind_ok, ifFalseEq]
  | some tv =>
    rw [hto] at hwt
    rw [show wfTool (some tv) = wfToolVal tv from rfl] at hwt
    cases tv with
    | vStr s => exact Bool.noConfusion hwt
    | vList l2 => exact Bool.noConfusion hwt
    | vOther => exact Bool.noConfusion hwt
    | vTable tt =>
      rw [show wfToolVal (TomlVal.vTable tt)
        = wfPoetryLookup (List.lookup keyPoetry tt) from rfl] at hwt
      cases hpo : List.lookup keyPoetry tt with
      | none =>
        have hs : poetryDepsKeys data = none := by
          simp only [poetryDepsKeys, hto, asTable, optBind_some, hpo, optMap_none]
        rw [hs]
        simp only [poetryBranch, hto, inCheck, pyIn, hpo, Option.isSome_none,
          exBind_ok, ifFalseEq]
      | some pv =>
        rw [hpo] at hwt
        rw [show wfPoetryLookup (some pv) = wfPoetryVal pv from rfl] at hwt
        cases pv with
        | vStr s => exact Bool.noConfusion hwt
        | vList l2 => exact Bool.noConfusion hwt
        | vOther => exact Bool.noConfusion hwt
        | vTable pt =>
          rw [show wfPoetryVal (TomlVal.vTable pt)
            = wfDepsLookup (List.lookup keyDependencies pt) from rfl] at hwt
          cases hd : List.lookup keyDependencies pt with
          | none =>
            have hs : poetryDepsKeys data = some [] := by
              simp only [poetryDepsKeys, hto, asTable, optBind_some, hpo,
                optMap_some, depsKeysOf, hd, optMap_none, optGetD_none]
            rw [hs]
            simp only [poetryBranch, hto, inCheck, pyIn, hpo, Option.isSome_some,
              exBind_ok, ifTrueEq, pyGetItem, pyDictGet, hd, optGetD_none,
              pyIter, List.map_nil, poetryComp, List.filterMap_nil]
            simp
          | some dv =>
            rw [hd] at hwt
            cases dv with
            | vStr s => exact Bool.noConfusion hwt
            | vList l2 => exact Bool.noConfusion hwt
            | vOther => exact Bool.noConfusion hwt
            | vTable dt =>
              have hs : poetryDepsKeys data = some (dt.map Prod.fst) := by
                simp only [poetryDepsKeys, hto, asTable, optBind_some, hpo,
                  optMap_some, depsKeysOf, hd, optGetD_some]
              rw [hs]
              simp only [poetryBranch, hto, inCheck, pyIn, hpo,
                Option.isSome_some, exBind_ok, ifTrueEq, pyGetItem, pyDictGet,
                hd, optGetD_some, pyIter]
              exact poetryComp_keys dt

theorem pyprojectBody_wf (data : List (Str × TomlVal))
    (hwf : tomlWF data = true) :
    pyprojectBody data
      = .ok (match projectDepsList data with
             | some deps => deps.filterMap normDep
             | none =>
               match poetryDepsKeys data with
               | some keys =>
                 keys.filterMap (fun k =>
                   if strLower k = strPython then none else some (strLower k))
               | none => []) := by
  obtain ⟨hwp, hwt⟩ := Bool.and_eq_true_iff.mp hwf
  cases hp : List.lookup keyProject data with
  | none =>
    have hs : projectDepsList data = none := by
      simp only [projectDepsList, hp, asTable, optBind_none]
    have hred : pyprojectBody data = poetryBranch data := by
      simp only [pyprojectBody, hp, inCheck, exBind_ok, ifFalseEq]
    rw [hs, hred]
    exact poetryBranch_wf data hwt
  | some pv =>
    rw [hp] at hwp
    rw [show wfProject (some pv) = wfProjVal pv from rfl] at hwp
    cases pv with
    | vStr s => exact Bool.noConfusion hwp
    | vList l2 => exact Bool.noConfusion hwp
    | vOther => exact Bool.noConfusion hwp
    | vTable pt =>
      rw [show wfProjVal (TomlVal.vTable pt)
        = wfProjDepsLookup (List.lookup keyDependencies pt) from rfl] at hwp
      cases hd : List.lookup keyDependencies pt with
      | none =>
        have hs : projectDepsList data = none := by
          simp only [projectDepsList, hp, asTable, optBind_some, hd, asStrList]
        have hred : pyprojectBody data = poetryBranch data := by
          simp only [pyprojectBody, hp, inCheck, pyIn, hd, Option.isSome_none,
            exBind_ok, ifFalseEq]
        rw [hs, hred]
        exact poetryBranch_wf data hwt
      | some dv =>
        rw [hd] at hwp
        rw [show wfProjDepsLookup (some dv) = wfDepsVal dv from rfl] at hwp
        cases dv with
        | vStr s => exact Bool.noConfusion hwp
        | vTable t2 => exact Bool.noConfusion hwp
        | vOther => exact Bool.noConfusion hwp
        | vList l =>
          have hall : l.all isStrVal = true := by
            rwa [show wfDepsVal (TomlVal.vList l) = l.all isStrVal from rfl] at hwp
          obtain ⟨ss, hss⟩ := strsOf_isSome l hall
          have hs : projectDepsList data = some ss := by
            simp only [projectDepsList, hp, asTable, optBind_some, hd, asStrList]
            exact hss
          have hred : pyprojectBody data
              = .ok (l.filterMap (fun v =>
                  match v with | .vStr s => normDep s | _ => none)) := by
            simp only [pyprojectBody, hp, inCheck, pyIn, hd, Option.isSome_some,
              exBind_ok, ifTrueEq, pyGetItem, pyIter]
            exact normDeps_strs l hall
          rw [hs, hred, strsOf_filterMap l ss hss]
/-- Claim C8 (amended): on well-formed documents the structured parser
checks the two locations in priority order, using the primary flat list
with comparator truncation and lower-casing when it exists, otherwise the
keys of the poetry dependencies sub-table with lower-casing only,
excluding keys equal to python after lower-casing; unparseable documents
give the empty list. -/
theorem C8_pyproject (tl : TomlLoads) (text : Str)
    (h : ∀ data, tl text = some data → tomlWF data = true) :
    extract_packages_from_pyproject tl text = pyprojectAmendedSpec tl text := by
  unfold extract_packages_from_pyproject pyprojectAmendedSpec
  cases ht : tl text with
  | none => rfl
  | some data =>
    simp only [pyprojectBody_wf data (h data ht)]

/-- Witness for the amended claim C8 at the counterexample document. -/
theorem C8_pyproject_witness :
    (∀ data, tomlLoadsCx [] = some data → tomlWF data = true)
    ∧ extract_packages_from_pyproject tomlLoadsCx []
        = pyprojectAmendedSpec tomlLoadsCx [] :=
  ⟨fun data hd => by
      have he : tomlDataCx = data := Option.some.inj hd
      rw [← he]
      decide,
   C8_pyproject tomlLoadsCx [] (fun data hd => by
      have he : tomlDataCx = data := Option.some.inj hd
      rw [← he]
      decide)⟩

end GHCluster
